import Mathlib

/-!
Verification of the calendar-grid engine of the `chemocalendar` repository.

The Python sources are shallowly embedded:
  * `parse_day_spec`           from `regimenbank.py`
  * `parse_frequency_days`     from `pythonbank.py`
  * `compute_calendar_grid`    from `regimenbank.py`
  * `make_calendar_text`       from `regimenbank.py`

Python strings are modelled as Lean `String`/`List Char` (ASCII fragment:
`str.lower`, `str.strip` and the `\s` regex class are modelled on the ASCII
whitespace/letter characters, which covers every string appearing in the
claims).  Python `int` is `Int`; `datetime.date` is the proleptic Gregorian
ordinal (`date.toordinal()`), an `Int`, with `date.weekday()` becoming
`pyWeekday` below.  Dictionaries that are only read back through `.get` are
modelled as functions into `Option`.
-/

namespace ChemoCal

/-! ### Character classes (ASCII model of Python's `\s`, `str.lower`, …) -/

/-- ASCII whitespace recognised by Python's `\s` class and `str.strip`. -/
def isPySpace (c : Char) : Bool :=
  c = ' ' ∨ c = '\t' ∨ c = '\n' ∨ c = '\r' ∨ c = '\x0b' ∨ c = '\x0c'

/-- Separator class of `re.split(r"[,\s]+", s)`. -/
def isSep (c : Char) : Bool := c = ',' ∨ isPySpace c

/-- ASCII model of Python `str.lower` applied character-wise. -/
def lowerChar (c : Char) : Char :=
  if 'A' ≤ c ∧ c ≤ 'Z' then Char.ofNat (c.toNat + 32) else c

/-- `s.lower()` (ASCII model). -/
def pyLower (l : List Char) : List Char := l.map lowerChar

/-- `s.replace("–", "-")`: the en-dash is a single character, so the
substring replacement is a character map. -/
def replaceEnDash (l : List Char) : List Char :=
  l.map (fun c => if c = '–' then '-' else c)

/-- `s.strip()` (ASCII model): drop whitespace from both ends. -/
def pyStrip (l : List Char) : List Char :=
  ((l.dropWhile isPySpace).reverse.dropWhile isPySpace).reverse

/-! ### Python `int(str)`

`int` accepts an optional sign followed by digits, with single underscores
allowed between digits (`"1_0" == 10`).  Surrounding whitespace and
non-ASCII digits cannot occur here because the argument is always a token
produced by splitting on `[,\s]+` (and such tokens are whitespace-free).
A `ValueError` is modelled as `none`. -/

/-- Numeric value of a digit list (only applied to decimal digits). -/
def digitsVal (l : List Char) : Nat :=
  l.foldl (fun a c => 10 * a + (c.toNat - 48)) 0

/-- Scan for `digit (digit | '_' digit)*`: every character after the first
must be a digit or an underscore directly preceded (and, by the final
check, followed) by a digit. -/
def vTail : Char → List Char → Bool
  | prev, [] => prev.isDigit
  | prev, c :: rest => (c.isDigit || (c = '_' && prev.isDigit)) && vTail c rest

/-- Valid unsigned Python integer literal body. -/
def validIntBody (l : List Char) : Bool :=
  match l with
  | [] => false
  | c :: rest => c.isDigit && vTail c rest

/-- Unsigned part of Python `int(str)`. -/
def pyNat (l : List Char) : Option Nat :=
  if validIntBody l then some (digitsVal (l.filter (fun c => c ≠ '_'))) else none

/-- Python `int(str)` on a whitespace-free token; `none` models `ValueError`. -/
def pyInt (s : List Char) : Option Int :=
  if s.head? = some '+' then (pyNat s.tail).map Int.ofNat
  else if s.head? = some '-' then (pyNat s.tail).map (fun n => -(n : Int))
  else (pyNat s).map Int.ofNat

/-! ### Token splitting: `re.split(r"[,\s]+", s)`

`re.split` may yield empty strings at the ends, but the Python loops skip
empty tokens (`if not tok: continue`), so the compositions are equal to this
splitter, which returns exactly the maximal nonempty runs of non-separator
characters. -/

/-- Worker for `tokenize`; `cur` is the reversed current token. -/
def tokenizeGo : List Char → List Char → List (List Char)
  | [], cur => if cur = [] then [] else [cur.reverse]
  | c :: rest, cur =>
    if isSep c then
      if cur = [] then tokenizeGo rest [] else cur.reverse :: tokenizeGo rest []
    else tokenizeGo rest (c :: cur)

/-- Split on runs of commas/whitespace, dropping empty tokens. -/
def tokenize (l : List Char) : List (List Char) := tokenizeGo l []

/-! ### `sorted(set(...))` -/

/-- Insert into a strictly sorted duplicate-free list. -/
def insertSorted (x : Int) : List Int → List Int
  | [] => [x]
  | y :: ys => if x < y then x :: y :: ys else if x = y then y :: ys else y :: insertSorted x ys

/-- `sorted(set(l))`: the strictly increasing enumeration of the elements
of `l`. -/
def sortedDedup (l : List Int) : List Int := l.foldr insertSorted []

/-! ### `parse_day_spec` (`regimenbank.py`) -/

/-- Does the token contain a hyphen (`"-" in tok`)? -/
def hasChar (l : List Char) (x : Char) : Bool := l.any (fun c => c = x)

/-- Day numbers contributed by one token:
a token containing `-` is split at the first hyphen (`tok.split("-", 1)`)
and, when both halves parse as ints with `a ≤ b`, contributes
`range(a, b + 1)`; otherwise a bare-int token contributes itself; any
`ValueError` silently discards the token. -/
def tokenDays (tok : List Char) : List Int :=
  if hasChar tok '-' then
    match pyInt (tok.takeWhile (fun c => c ≠ '-')),
          pyInt ((tok.dropWhile (fun c => c ≠ '-')).tail) with
    | some a, some b =>
        if a ≤ b then (List.range (b + 1 - a).toNat).map (fun (i : Nat) => a + (i : Int))
        else []
    | _, _ => []
  else
    match pyInt tok with
    | some n => [n]
    | none => []

/-- The optional `s` of `days?` (greedy: taken whenever present). -/
def dropS : List Char → List Char
  | c :: r => if c = 's' then r else c :: r
  | [] => []

/-- The optional `[:\-]` after the label. -/
def dropColonDash : List Char → List Char
  | c :: r => if c = ':' ∨ c = '-' then r else c :: r
  | [] => []

/-- The `re.sub(r"^days?\s*[:\-]?\s*", "", s)` step: strip a leading
`day`/`days` label, optional whitespace, one optional `:` or `-`, and
optional whitespace.  The regex is anchored and everything after each
greedy piece always succeeds, so greedy maximal munch is exact. -/
def stripDaysLabel : List Char → List Char
  | c1 :: c2 :: c3 :: rest =>
    if c1 = 'd' ∧ c2 = 'a' ∧ c3 = 'y' then
      (dropColonDash ((dropS rest).dropWhile isPySpace)).dropWhile isPySpace
    else c1 :: c2 :: c3 :: rest
  | l => l

/-- `day_spec.replace("–", "-").strip().lower()` then the label strip. -/
def normalizedSpec (s : String) : List Char :=
  stripDaysLabel (pyLower (pyStrip (replaceEnDash s.toList)))

/-- The `out` list accumulated by the token loop of `parse_day_spec`. -/
def collectedDays (s : String) : List Int :=
  (tokenize (normalizedSpec s)).foldl (fun out tok => out ++ tokenDays tok) []

/-- `parse_day_spec` of `regimenbank.py`: parse a free-text day
specification into the sorted duplicate-free list of collected days `≥ 1`. -/
def parse_day_spec (day_spec : String) : List Int :=
  if day_spec = "" then []
  else if normalizedSpec day_spec = [] then []
  else sortedDedup ((collectedDays day_spec).filter (fun d => 1 ≤ d))

/-! ### `parse_frequency_days` (`pythonbank.py`)

`re.search(r"days\s+(.+)", s)`: scan for the leftmost position carrying the
literal `days`, then `\s+` (greedy, with give-back) and `(.+)` where `.`
matches every character except `'\n'`. -/

/-- Backtracking case of `days\s+(.+)` when everything after the
whitespace run has been exhausted: `\s+` gives characters back to `(.+)`
from the right; the group then starts at the rightmost non-newline
character of the run (all later characters are newlines). -/
def lastSplit : List Char → Option (List Char)
  | [] => none
  | c :: rest =>
    match lastSplit rest with
    | some g => some g
    | none => if c = '\n' then none else some ((c :: rest).takeWhile (fun x => x ≠ '\n'))

/-- Match `\s+(.+)` against `rest`, returning the group. -/
def matchWsDot (rest : List Char) : Option (List Char) :=
  let w := rest.takeWhile isPySpace
  let t := rest.dropWhile isPySpace
  if w = [] then none
  else if t = [] then lastSplit w.tail
  else some (t.takeWhile (fun c => c ≠ '\n'))

/-- Try the pattern `days\s+(.+)` anchored at the start of `l`. -/
def tryDaysAt (l : List Char) : Option (List Char) :=
  match l with
  | c1 :: c2 :: c3 :: c4 :: rest =>
    if c1 = 'd' ∧ c2 = 'a' ∧ c3 = 'y' ∧ c4 = 's' then matchWsDot rest else none
  | _ => none

/-- `re.search(r"days\s+(.+)", s)`: leftmost match wins. -/
def findDaysMatch : List Char → Option (List Char)
  | [] => none
  | c :: rest =>
    match tryDaysAt (c :: rest) with
    | some g => some g
    | none => findDaysMatch rest

/-- `parse_frequency_days` of `pythonbank.py`: find the `days …` part and
collect tokens exactly like `parse_day_spec`, but with no `≥ 1` filter;
`sorted(sorted(set(days)))` is the same sorted duplicate-free enumeration. -/
def parse_frequency_days (freq : String) : List Int :=
  match findDaysMatch (pyStrip (pyLower (replaceEnDash freq.toList))) with
  | none => []
  | some part =>
      sortedDedup ((tokenize part).foldl (fun out tok => out ++ tokenDays tok) [])

/-! ### Data model (`regimenbank.py` dataclasses) -/

/-- The `Chemotherapy` dataclass: only `name` and `duration` (the day map)
feed the calendar engine. -/
structure Chemotherapy where
  name : String
  route : String
  dose : String
  frequency : String
  duration : String
  totalDoses : Option Int
deriving DecidableEq, Repr

/-- The `Regimen` dataclass. -/
structure Regimen where
  name : String
  diseaseState : Option String
  notes : Option String
  therapies : List Chemotherapy
deriving DecidableEq, Repr

/-! ### Dates

A `datetime.date` is its proleptic-Gregorian ordinal (`date.toordinal()`),
an `Int`; ordinal 1 is Monday, Jan 1 of year 1.  `timedelta` arithmetic is
integer arithmetic on the ordinal. -/

/-- `date.weekday()`: Monday = 0 … Sunday = 6. -/
def pyWeekday (d : Int) : Int := (d - 1) % 7

/-- One cell of the computed grid:
`{"date": d, "cycle_day": ..., "labels": [...]}`. -/
structure Cell where
  date : Int
  cycleDay : Option Int
  labels : List String
deriving DecidableEq, Repr

/-! ### Schedule aggregation (first loop of `compute_calendar_grid`) -/

/-- `[d for d in parse_day_spec(t.duration) if d <= cycle_len]`. -/
def filteredDays (cycleLen : Int) (t : Chemotherapy) : List Int :=
  (parse_day_spec t.duration).filter (fun d => d ≤ cycleLen)

/-- `{d: [] for d in range(1, cycle_len + 1)}`; the dict is modelled as a
function to `Option`, `none` meaning the key is absent. -/
def initByDay (cycleLen : Int) : Int → Option (List String) :=
  fun d => if 1 ≤ d ∧ d ≤ cycleLen then some [] else none

/-- `by_day.setdefault(d, []).append(name)`. -/
def appendName (m : Int → Option (List String)) (d : Int) (name : String) :
    Int → Option (List String) :=
  fun x => if x = d then some (((m d).getD []) ++ [name]) else m x

/-- `for d in dlist: by_day.setdefault(d, []).append(t.name)`. -/
def addTherapy (cycleLen : Int) (m : Int → Option (List String)) (t : Chemotherapy) :
    Int → Option (List String) :=
  (filteredDays cycleLen t).foldl (fun m d => appendName m d t.name) m

/-- Maximum of a list (`max(dlist)`, only applied to nonempty lists). -/
def listMaxI : List Int → Int
  | [] => 0
  | x :: xs => xs.foldl max x

/-- The therapy loop of `compute_calendar_grid`: for each therapy with a
nonempty filtered day list, extend `max_day` and append its name to the
per-day lists. -/
def aggregate (reg : Regimen) (cycleLen : Int) :
    Int × (Int → Option (List String)) :=
  reg.therapies.foldl
    (fun acc t =>
      let dlist := filteredDays cycleLen t
      if dlist.isEmpty then acc
      else (max acc.1 (listMaxI dlist), addTherapy cycleLen acc.2 t))
    (cycleLen, initByDay cycleLen)

/-! ### The grid walk -/

/-- Body of the date walk: the cell built for date `d`
(`by_day.get(cd, []) or ["Rest"]` is the `or`-of-falsy idiom). -/
def mkCell (start maxDay : Int) (byDay : Int → Option (List String)) (d : Int) : Cell :=
  if start ≤ d then
    let cd := d - start + 1
    if 1 ≤ cd ∧ cd ≤ maxDay then
      let ls := (byDay cd).getD []
      ⟨d, some cd, if ls.isEmpty then ["Rest"] else ls⟩
    else ⟨d, none, []⟩
  else ⟨d, none, []⟩

/-- The `while d <= last_sat` loop: build cells one date at a time,
flushing each complete 7-cell week.  The fuel is the exact iteration
count, and the `d ≤ lastSat` guard is kept explicit; the loop returns
`(grid, week, d)`. -/
def gridLoop (start maxDay lastSat : Int) (byDay : Int → Option (List String)) :
    Nat → Int → List Cell → List (List Cell) →
    List (List Cell) × List Cell × Int
  | 0, d, week, grid => (grid, week, d)
  | Nat.succ n, d, week, grid =>
    if d ≤ lastSat then
      let week' := week ++ [mkCell start maxDay byDay d]
      if week'.length = 7 then
        gridLoop start maxDay lastSat byDay n (d + 1) [] (grid ++ [week'])
      else
        gridLoop start maxDay lastSat byDay n (d + 1) week' grid
    else (grid, week, d)

/-- The trailing `while len(week) < 7` padding of a partial final week. -/
def padWeek (week : List Cell) (d : Int) : List Cell :=
  week ++ (List.range (7 - week.length)).map (fun (i : Nat) => ⟨d + (i : Int), none, []⟩)

/-- `compute_calendar_grid(reg, start, cycle_len)` of `regimenbank.py`,
returning `(first_sun, last_sat, max_day, grid)`. -/
def compute_calendar_grid (reg : Regimen) (start cycleLen : Int) :
    Int × Int × Int × List (List Cell) :=
  let agg := aggregate reg cycleLen
  let maxDay := agg.1
  let byDay := agg.2
  let firstSun := start - (pyWeekday start + 1) % 7
  let lastNeeded := start + (maxDay - 1)
  let lastSat := lastNeeded + (5 - pyWeekday lastNeeded) % 7
  let res := gridLoop start maxDay lastSat byDay (lastSat - firstSun + 1).toNat firstSun [] []
  let grid := if res.2.1.isEmpty then res.1 else res.1 ++ [padWeek res.2.1 res.2.2]
  (firstSun, lastSat, maxDay, grid)

/-! ### Gregorian calendar fields of an ordinal (CPython `_ord2ymd`)

Needed only to render the date headers of `make_calendar_text`. -/

/-- Gregorian leap year. -/
def isLeapYear (y : Int) : Bool := y % 4 = 0 && (y % 100 ≠ 0 || y % 400 = 0)

/-- Days in the months of a non-leap year. -/
def daysInMonthTbl (m : Int) : Int :=
  if m = 1 then 31 else if m = 2 then 28 else if m = 3 then 31 else if m = 4 then 30
  else if m = 5 then 31 else if m = 6 then 30 else if m = 7 then 31 else if m = 8 then 31
  else if m = 9 then 30 else if m = 10 then 31 else if m = 11 then 30 else 31

/-- Days in a month of a given year. -/
def daysInMonth (y m : Int) : Int :=
  if m = 2 ∧ isLeapYear y then 29 else daysInMonthTbl m

/-- Cumulative days before each month in a non-leap year. -/
def daysBeforeMonthTbl (m : Int) : Int :=
  if m = 1 then 0 else if m = 2 then 31 else if m = 3 then 59 else if m = 4 then 90
  else if m = 5 then 120 else if m = 6 then 151 else if m = 7 then 181 else if m = 8 then 212
  else if m = 9 then 243 else if m = 10 then 273 else if m = 11 then 304 else 334

/-- Days before month `m` of year `y`. -/
def daysBeforeMonth (y m : Int) : Int :=
  daysBeforeMonthTbl m + (if 2 < m ∧ isLeapYear y then 1 else 0)

/-- Ordinal to `(year, month, day)` (CPython's `_ord2ymd`; `/` and `%` are
Euclidean, which agrees with Python floor division for these positive
divisors). -/
def ord2ymd (nIn : Int) : Int × Int × Int :=
  let n0 := nIn - 1
  let n400 := n0 / 146097
  let r400 := n0 % 146097
  let n100 := r400 / 36524
  let r100 := r400 % 36524
  let n4 := r100 / 1461
  let r4 := r100 % 1461
  let n1 := r4 / 365
  let n := r4 % 365
  let year := n400 * 400 + n100 * 100 + n4 * 4 + n1 + 1
  if n1 = 4 ∨ n100 = 4 then (year - 1, 12, 31)
  else
    let month := (n + 50) / 32
    let preceding := daysBeforeMonth year month
    if preceding > n then
      (year, month - 1, n - (preceding - daysInMonth year (month - 1)) + 1)
    else (year, month, n - preceding + 1)

/-- `date.year`. -/
def dateYear (d : Int) : Int := (ord2ymd d).1

/-- `date.month`. -/
def dateMonth (d : Int) : Int := (ord2ymd d).2.1

/-- `date.day`. -/
def dateDay (d : Int) : Int := (ord2ymd d).2.2

/-- `calendar.month_name[m]`. -/
def monthName (m : Int) : String :=
  if m = 1 then "January" else if m = 2 then "February" else if m = 3 then "March"
  else if m = 4 then "April" else if m = 5 then "May" else if m = 6 then "June"
  else if m = 7 then "July" else if m = 8 then "August" else if m = 9 then "September"
  else if m = 10 then "October" else if m = 11 then "November" else if m = 12 then "December"
  else ""

/-- `calendar.month_abbr[m]`. -/
def monthAbbr (m : Int) : String :=
  if m = 1 then "Jan" else if m = 2 then "Feb" else if m = 3 then "Mar"
  else if m = 4 then "Apr" else if m = 5 then "May" else if m = 6 then "Jun"
  else if m = 7 then "Jul" else if m = 8 then "Aug" else if m = 9 then "Sep"
  else if m = 10 then "Oct" else if m = 11 then "Nov" else if m = 12 then "Dec"
  else ""

/-! ### `make_calendar_text` (`regimenbank.py`) -/

/-- `txt.ljust(w)`: pad on the right with blanks up to `w` characters;
longer strings are returned unchanged. -/
def ljust (w : Nat) (s : String) : String :=
  if s.length < w then s ++ String.mk (List.replicate (w - s.length) ' ') else s

/-- The text block of one cell: date header, then — when a cycle day is
present — `"Day N"` followed by the labels. -/
def cellBlock (c : Cell) : List String :=
  let hd := monthAbbr (dateMonth c.date) ++ " " ++ toString (dateDay c.date)
  match c.cycleDay with
  | some cd => hd :: ("Day " ++ toString cd) :: c.labels
  | none => [hd]

/-- `maxh`: the height of the tallest cell block of a week
(`maxh = max(maxh, len(block))` starting from 0). -/
def maxhOf (week : List Cell) : Nat :=
  (week.map cellBlock).foldl (fun m b => max m b.length) 0

/-- The `maxh` text rows of one week: row `r` joins the 7 cells' `r`-th
entries (blank when the block is shorter), each left-justified to the
12-character column width, separated by single blanks. -/
def weekBody (week : List Cell) : List String :=
  let cells := week.map cellBlock
  (List.range (maxhOf week)).map (fun r =>
    String.intercalate " " (cells.map (fun b => ljust 12 (b.getD r ""))))

/-- Everything the loop body appends for one week: the rows, then the
blank separator line. -/
def weekRender (week : List Cell) : List String := weekBody week ++ [""]

/-- The banner and weekday-header lines of `make_calendar_text`. -/
def calendarHeader (reg : Regimen) (firstSun lastSat : Int)
    (cycleLabel : String) (note : Option String) : List String :=
  let months :=
    monthName (dateMonth firstSun) ++
      (if dateMonth firstSun ≠ dateMonth lastSat ∨ dateYear firstSun ≠ dateYear lastSat then
        " - " ++ monthName (dateMonth lastSat) else "")
  let year :=
    if dateYear firstSun = dateYear lastSat then toString (dateYear firstSun)
    else toString (dateYear firstSun) ++ "-" ++ toString (dateYear lastSat)
  let l1 := [reg.name ++ " — " ++ cycleLabel, months ++ " " ++ year]
  let l2 := match note with
            | some nt => l1 ++ ["Note: " ++ nt]
            | none => l1
  l2 ++ ["Sun       Mon       Tue       Wed       Thu       Fri       Sat"]

/-- The `lines` list built by `make_calendar_text`. -/
def makeCalendarLines (reg : Regimen) (start cycleLen : Int)
    (cycleLabel : String) (note : Option String) : List String :=
  let res := compute_calendar_grid reg start cycleLen
  (res.2.2.2).foldl (fun lines week => lines ++ weekRender week)
    (calendarHeader reg res.1 res.2.1 cycleLabel note)

/-- `make_calendar_text`: `"\n".join(lines)`. -/
def make_calendar_text (reg : Regimen) (start cycleLen : Int)
    (cycleLabel : String) (note : Option String) : String :=
  String.intercalate "\n" (makeCalendarLines reg start cycleLen cycleLabel note)

/-! ### Properties of `sortedDedup` -/

theorem insertSorted_mem (x y : Int) (l : List Int) :
    y ∈ insertSorted x l ↔ y = x ∨ y ∈ l := by
  induction l with
  | nil => simp [insertSorted]
  | cons z zs ih =>
    by_cases h1 : x < z
    · simp [insertSorted, h1]
    · by_cases h2 : x = z
      · subst h2
        simp only [insertSorted, if_neg h1, if_pos rfl]
        constructor
        · intro h; exact Or.inr h
        · rintro (rfl | h)
          · exact List.mem_cons_self _ _
          · exact h
      · simp only [insertSorted, if_neg h1, if_neg h2, List.mem_cons, ih]
        tauto

theorem insertSorted_sorted (x : Int) (l : List Int) (h : l.Sorted (· < ·)) :
    (insertSorted x l).Sorted (· < ·) := by
  induction l with
  | nil => simp [insertSorted]
  | cons z zs ih =>
    rw [List.sorted_cons] at h
    by_cases h1 : x < z
    · simp only [insertSorted, if_pos h1, List.sorted_cons]
      refine ⟨?_, h⟩
      intro b hb
      rcases List.mem_cons.mp hb with rfl | hb
      · exact h1
      · exact lt_trans h1 (h.1 b hb)
    · by_cases h2 : x = z
      · simpa [insertSorted, if_neg h1, h2] using h
      · simp only [insertSorted, if_neg h1, if_neg h2, List.sorted_cons]
        refine ⟨?_, ih h.2⟩
        intro b hb
        rcases (insertSorted_mem x b zs).mp hb with rfl | hb
        · omega
        · exact h.1 b hb

theorem sortedDedup_sorted (l : List Int) : (sortedDedup l).Sorted (· < ·) := by
  induction l with
  | nil => simp [sortedDedup]
  | cons x xs ih => exact insertSorted_sorted x _ ih

theorem sortedDedup_mem (l : List Int) (y : Int) : y ∈ sortedDedup l ↔ y ∈ l := by
  induction l with
  | nil => simp [sortedDedup]
  | cons x xs ih =>
    simp only [sortedDedup, List.foldr_cons] at *
    rw [insertSorted_mem, ih, List.mem_cons]

theorem sortedDedup_nodup (l : List Int) : (sortedDedup l).Nodup :=
  (sortedDedup_sorted l).imp ne_of_lt

/-- Unique characterisation used to equate the two parsers' results:
a strictly sorted list is determined by its members. -/
theorem sorted_eq_of_mem_iff : ∀ {l1 l2 : List Int},
    l1.Sorted (· < ·) → l2.Sorted (· < ·) →
    (∀ x, x ∈ l1 ↔ x ∈ l2) → l1 = l2 := by
  intro l1
  induction l1 with
  | nil =>
    intro l2 _ _ h
    cases l2 with
    | nil => rfl
    | cons b bs => exact absurd ((h b).mpr (List.mem_cons_self _ _)) (by simp)
  | cons a as ih =>
    intro l2 h1 h2 h
    cases l2 with
    | nil => exact absurd ((h a).mp (List.mem_cons_self _ _)) (by simp)
    | cons b bs =>
      rw [List.sorted_cons] at h1 h2
      have hab : a = b := by
        have ha2 : a ∈ b :: bs := (h a).mp (List.mem_cons_self _ _)
        have hb1 : b ∈ a :: as := (h b).mpr (List.mem_cons_self _ _)
        rcases List.mem_cons.mp ha2 with rfl | ha2
        · rfl
        · rcases List.mem_cons.mp hb1 with rfl | hb1
          · rfl
          · have := h2.1 a ha2
            have := h1.1 b hb1
            omega
      subst hab
      have htail : as = bs := by
        refine ih h1.2 h2.2 ?_
        intro x
        constructor
        · intro hx
          rcases List.mem_cons.mp ((h x).mp (List.mem_cons.mpr (Or.inr hx))) with rfl | h'
          · exact absurd (h1.1 x hx) (lt_irrefl x)
          · exact h'
        · intro hx
          rcases List.mem_cons.mp ((h x).mpr (List.mem_cons.mpr (Or.inr hx))) with rfl | h'
          · exact absurd (h2.1 x hx) (lt_irrefl x)
          · exact h'
      rw [htail]

/-! ### Generic fold lemma: the token loop is a `flatMap` -/

theorem foldl_append_eq_flatMap {α β : Type} (f : α → List β) (l : List α)
    (init : List β) :
    l.foldl (fun out x => out ++ f x) init = init ++ l.flatMap f := by
  induction l generalizing init with
  | nil => simp
  | cons x xs ih => simp [ih, List.append_assoc]

theorem collectedDays_eq_flatMap (s : String) :
    collectedDays s = (tokenize (normalizedSpec s)).flatMap tokenDays := by
  unfold collectedDays
  rw [foldl_append_eq_flatMap]
  simp

theorem parse_day_spec_eq (s : String) :
    parse_day_spec s = sortedDedup ((collectedDays s).filter (fun d => 1 ≤ d)) := by
  unfold parse_day_spec
  by_cases h0 : s = ""
  · subst h0
    simp [collectedDays, normalizedSpec, pyStrip, pyLower, replaceEnDash,
      stripDaysLabel, tokenize, tokenizeGo, sortedDedup]
  · rw [if_neg h0]
    by_cases h1 : normalizedSpec s = []
    · rw [if_pos h1, collectedDays_eq_flatMap, h1]
      simp [tokenize, tokenizeGo, sortedDedup]
    · rw [if_neg h1]

/-! ### Claim theorems C6 and C7 -/

/-- Claim C6: for every input string, `parse_day_spec` returns the sorted,
duplicate-free list of exactly the integers `≥ 1` denoted by its
recognizable tokens (membership coincides with the raw collected token
days, restricted to `≥ 1`); in particular `"Days 1-7, 15"` (hyphen or
en-dash alike) yields `[1,…,7,15]` and `"completely invalid text"` yields
`[]`. -/
theorem parse_day_spec_spec :
    (∀ s : String, (parse_day_spec s).Sorted (· < ·)) ∧
    (∀ s : String, (parse_day_spec s).Nodup) ∧
    (∀ (s : String) (d : Int), d ∈ parse_day_spec s → 1 ≤ d) ∧
    (∀ (s : String) (d : Int), d ∈ parse_day_spec s ↔ 1 ≤ d ∧ d ∈ collectedDays s) ∧
    parse_day_spec "Days 1-7, 15" = [1, 2, 3, 4, 5, 6, 7, 15] ∧
    parse_day_spec "Days 1–7, 15" = [1, 2, 3, 4, 5, 6, 7, 15] ∧
    parse_day_spec "completely invalid text" = [] := by
  have hmem : ∀ (s : String) (d : Int),
      d ∈ parse_day_spec s ↔ 1 ≤ d ∧ d ∈ collectedDays s := by
    intro s d
    rw [parse_day_spec_eq, sortedDedup_mem, List.mem_filter]
    simp only [decide_eq_true_eq]
    tauto
  refine ⟨?_, ?_, ?_, hmem, by decide, by decide, by decide⟩
  · intro s; rw [parse_day_spec_eq]; exact sortedDedup_sorted _
  · intro s; rw [parse_day_spec_eq]; exact sortedDedup_nodup _
  · intro s d hd; exact ((hmem s d).mp hd).1

/-- Witness for C6 at a concrete member of a concrete parse. -/
theorem parse_day_spec_spec_witness : (1 : Int) ≤ 15 :=
  parse_day_spec_spec.2.2.1 "Days 1-7, 15" 15 (by decide)

/-- Claim C7: `parse_day_spec` is total (it is a Lean function on all of
`String`) and discards malformed tokens one at a time: a token
contributing no days (failed int parse, or an `A-B` range with `A > B`)
is dropped from the collected-day list without affecting the other
tokens' contributions; an input with no parseable tokens yields `[]`. -/
theorem parse_day_spec_total_skip :
    (∀ (l1 l2 : List (List Char)) (bad : List Char), tokenDays bad = [] →
        (l1 ++ bad :: l2).flatMap tokenDays = (l1 ++ l2).flatMap tokenDays) ∧
    (∀ s : String, collectedDays s = (tokenize (normalizedSpec s)).flatMap tokenDays) ∧
    tokenDays ['3', '-', '2'] = [] ∧
    parse_day_spec "Days 1, x, 3-2, 5" = [1, 5] ∧
    parse_day_spec "??? !!!" = [] := by
  refine ⟨?_, collectedDays_eq_flatMap, by decide, by decide, by decide⟩
  intro l1 l2 bad hbad
  simp [List.flatMap_append, List.flatMap_cons, hbad]

/-- Witness for C7: dropping the malformed token `"x"` between `"1"` and
`"5"` leaves the other contributions intact. -/
theorem parse_day_spec_total_skip_witness :
    ([['1']] ++ ['x'] :: [['5']]).flatMap tokenDays
      = ([['1']] ++ [['5']]).flatMap tokenDays :=
  parse_day_spec_total_skip.1 [['1']] [['5']] ['x'] (by decide)

/-! ### The aggregation loop: `max_day` and `by_day` characterised -/

/-- The `by_day` dict built by `compute_calendar_grid`. -/
def byDayOf (reg : Regimen) (cl : Int) : Int → Option (List String) :=
  (aggregate reg cl).2

/-- `by_day.get(d, [])`. -/
def byDayGet (m : Int → Option (List String)) (d : Int) : List String :=
  (m d).getD []

/-- The names of the therapies dosing on cycle day `cd` (filtered to the
cycle), in regimen order. -/
def dosesOn (reg : Regimen) (cl cd : Int) : List String :=
  (reg.therapies.filter (fun t => cd ∈ filteredDays cl t)).map (fun t => t.name)

theorem parse_day_spec_nodup (s : String) : (parse_day_spec s).Nodup := by
  rw [parse_day_spec_eq]; exact sortedDedup_nodup _

theorem parse_day_spec_pos {s : String} {d : Int} (h : d ∈ parse_day_spec s) :
    1 ≤ d := by
  rw [parse_day_spec_eq, sortedDedup_mem, List.mem_filter] at h
  simpa using h.2

theorem mem_filteredDays {cl : Int} {t : Chemotherapy} {d : Int} :
    d ∈ filteredDays cl t ↔ d ∈ parse_day_spec t.duration ∧ d ≤ cl := by
  simp [filteredDays]

theorem filteredDays_nodup (cl : Int) (t : Chemotherapy) :
    (filteredDays cl t).Nodup :=
  (parse_day_spec_nodup t.duration).filter _

theorem foldl_max_le {l : List Int} {a c : Int} (ha : a ≤ c)
    (h : ∀ x ∈ l, x ≤ c) : l.foldl max a ≤ c := by
  induction l generalizing a with
  | nil => simpa using ha
  | cons x xs ih =>
    simp only [List.foldl_cons]
    exact ih (max_le ha (h x (List.mem_cons_self _ _)))
      (fun y hy => h y (List.mem_cons.mpr (Or.inr hy)))

theorem listMaxI_le {l : List Int} {c : Int} (h : ∀ x ∈ l, x ≤ c)
    (hne : l ≠ []) : listMaxI l ≤ c := by
  cases l with
  | nil => exact absurd rfl hne
  | cons x xs =>
    exact foldl_max_le (h x (List.mem_cons_self _ _))
      (fun y hy => h y (List.mem_cons.mpr (Or.inr hy))) (l := xs)

/-- `max_day` is computed from the already-filtered day lists, so it never
moves off the requested cycle length. -/
theorem aggregate_fst (reg : Regimen) (cl : Int) : (aggregate reg cl).1 = cl := by
  unfold aggregate
  suffices h : ∀ (ts : List Chemotherapy) (acc : Int × (Int → Option (List String))),
      acc.1 = cl → (ts.foldl
        (fun acc t =>
          let dlist := filteredDays cl t
          if dlist.isEmpty then acc
          else (max acc.1 (listMaxI dlist), addTherapy cl acc.2 t)) acc).1 = cl by
    exact h reg.therapies _ rfl
  intro ts
  induction ts with
  | nil => intro acc h; simpa using h
  | cons t ts ih =>
    intro acc h
    simp only [List.foldl_cons]
    by_cases he : (filteredDays cl t).isEmpty
    · simpa [he] using ih acc h
    · have hle : listMaxI (filteredDays cl t) ≤ cl :=
        listMaxI_le (fun x hx => (mem_filteredDays.mp hx).2)
          (fun hn => he (by simp [hn]))
      refine ih _ ?_
      simp only [if_neg he]
      simp [h, max_eq_left hle]

/-- The second component of the aggregation fold ignores `max_day`. -/
theorem aggregate_snd (reg : Regimen) (cl : Int) :
    (aggregate reg cl).2 = reg.therapies.foldl
      (fun m t => if (filteredDays cl t).isEmpty then m else addTherapy cl m t)
      (initByDay cl) := by
  unfold aggregate
  suffices h : ∀ (ts : List Chemotherapy) (acc : Int × (Int → Option (List String))),
      (ts.foldl
        (fun acc t =>
          let dlist := filteredDays cl t
          if dlist.isEmpty then acc
          else (max acc.1 (listMaxI dlist), addTherapy cl acc.2 t)) acc).2
      = ts.foldl
          (fun m t => if (filteredDays cl t).isEmpty then m else addTherapy cl m t)
          acc.2 by
    exact h reg.therapies _
  intro ts
  induction ts with
  | nil => intro acc; rfl
  | cons t ts ih =>
    intro acc
    simp only [List.foldl_cons]
    by_cases he : (filteredDays cl t).isEmpty
    · simpa [he] using ih acc
    · simpa [he] using ih (max acc.1 (listMaxI (filteredDays cl t)), addTherapy cl acc.2 t)

/-- Repeated `setdefault(d, []).append(name)` over a duplicate-free key
list updates exactly those keys. -/
theorem addTherapy_apply (cl : Int) (t : Chemotherapy)
    (m : Int → Option (List String)) (x : Int) :
    addTherapy cl m t x =
      if x ∈ filteredDays cl t then some (((m x).getD []) ++ [t.name]) else m x := by
  unfold addTherapy
  have hnd := filteredDays_nodup cl t
  generalize filteredDays cl t = dl at hnd ⊢
  induction dl generalizing m with
  | nil => simp
  | cons d ds ih =>
    simp only [List.foldl_cons]
    rw [List.nodup_cons] at hnd
    rw [ih _ hnd.2]
    by_cases hx : x ∈ ds
    · have hxd : x ≠ d := fun h => hnd.1 (h ▸ hx)
      simp [hx, hxd, appendName, List.mem_cons]
    · by_cases hxd : x = d
      · subst hxd
        simp [hx, appendName]
      · simp [hx, hxd, appendName, List.mem_cons]

theorem byFold_apply (cl : Int) :
    ∀ (ts : List Chemotherapy) (m : Int → Option (List String)) (x : Int)
      (lx : List String), m x = some lx →
      (ts.foldl (fun m t => if (filteredDays cl t).isEmpty then m else addTherapy cl m t) m) x
        = some (lx ++ (ts.filter (fun t => x ∈ filteredDays cl t)).map (fun t => t.name)) := by
  intro ts
  induction ts with
  | nil => intro m x lx h; simpa using h
  | cons t ts ih =>
    intro m x lx h
    simp only [List.foldl_cons]
    by_cases he : (filteredDays cl t).isEmpty
    · have hx : x ∉ filteredDays cl t := by
        intro hx; rw [List.isEmpty_iff] at he; simp [he] at hx
      rw [if_pos he, ih m x lx h]
      simp [List.filter_cons, hx]
    · rw [if_neg he]
      by_cases hx : x ∈ filteredDays cl t
      · have : addTherapy cl m t x = some (lx ++ [t.name]) := by
          rw [addTherapy_apply, if_pos hx, h]; rfl
        rw [ih _ x (lx ++ [t.name]) this]
        simp [List.filter_cons, hx]
      · have : addTherapy cl m t x = some lx := by
          rw [addTherapy_apply, if_neg hx, h]
        rw [ih _ x lx this]
        simp [List.filter_cons, hx]

theorem byFold_none (cl : Int) :
    ∀ (ts : List Chemotherapy) (m : Int → Option (List String)) (x : Int),
      ¬(1 ≤ x ∧ x ≤ cl) → m x = none →
      (ts.foldl (fun m t => if (filteredDays cl t).isEmpty then m else addTherapy cl m t) m) x
        = none := by
  intro ts
  induction ts with
  | nil => intro m x _ h; simpa using h
  | cons t ts ih =>
    intro m x hr h
    have hx : x ∉ filteredDays cl t := by
      intro hx
      exact hr ⟨parse_day_spec_pos (mem_filteredDays.mp hx).1, (mem_filteredDays.mp hx).2⟩
    simp only [List.foldl_cons]
    by_cases he : (filteredDays cl t).isEmpty
    · rw [if_pos he]; exact ih m x hr h
    · rw [if_neg he]
      refine ih _ x hr ?_
      rw [addTherapy_apply, if_neg hx]
      exact h

/-- `by_day` maps exactly the in-range cycle days, to the regimen-ordered
names of the therapies dosing there. -/
theorem byDay_char (reg : Regimen) (cl d : Int) :
    byDayOf reg cl d =
      if 1 ≤ d ∧ d ≤ cl then some (dosesOn reg cl d) else none := by
  unfold byDayOf
  rw [aggregate_snd]
  by_cases h : 1 ≤ d ∧ d ≤ cl
  · rw [if_pos h]
    have hinit : initByDay cl d = some [] := by simp [initByDay, h]
    rw [byFold_apply cl reg.therapies _ d [] hinit]
    simp [dosesOn]
  · rw [if_neg h]
    have hinit : initByDay cl d = none := by simp [initByDay, h]
    exact byFold_none cl reg.therapies _ d h hinit

/-! ### Claims C1 and C2 -/

/-- A regimen with a single therapy whose day spec lies beyond a 5-day
cycle. -/
def regBeyond : Regimen :=
  ⟨"Beyond", none, none, [⟨"X", "IV", "50", "once", "10", none⟩]⟩

/-- Claim C1 counterexample: for `regBeyond`, cycle length 5, the parsed
offset 10 exceeds the cycle length, yet `compute_calendar_grid` returns
`maxDay = 5`, not the claimed maximum parsed offset 10: the `d ≤
cycle_len` filter runs before `max_day` is updated. -/
theorem maxDay_not_extended_cex :
    (10 : Int) ∈ parse_day_spec "10" ∧ (5 : Int) < 10 ∧
      (compute_calendar_grid regBeyond 738888 5).2.2.1 = 5 ∧
      (compute_calendar_grid regBeyond 738888 5).2.2.1 ≠ 10 := by
  decide

/-- Claim C1 (amended): for every regimen, start date and cycle length,
the `maxDay` returned by `compute_calendar_grid` equals the requested
cycle length — parsed offsets beyond the cycle length are filtered out
before the maximum is taken, so they never extend the displayed window. -/
theorem maxDay_eq_cycleLen (reg : Regimen) (start cycleLen : Int) :
    (compute_calendar_grid reg start cycleLen).2.2.1 = cycleLen := by
  have h := aggregate_fst reg cycleLen
  simp only [compute_calendar_grid]
  exact h

/-- Claim C2: the `by_day` mapping built by `compute_calendar_grid`
mentions a therapy name on cycle day `d` only when `d ≤ cycleLength` and
`d` is in that therapy's parsed day spec, and days beyond the nominal
cycle length are never mapped to any name. -/
theorem byDay_within_cycle (reg : Regimen) (cl : Int) :
    (∀ d name, name ∈ byDayGet (byDayOf reg cl) d →
      d ≤ cl ∧ 1 ≤ d ∧
        ∃ t ∈ reg.therapies, t.name = name ∧ d ∈ parse_day_spec t.duration) ∧
    (∀ d, cl < d → byDayGet (byDayOf reg cl) d = []) := by
  constructor
  · intro d name h
    rw [byDayGet, byDay_char] at h
    by_cases hr : 1 ≤ d ∧ d ≤ cl
    · rw [if_pos hr] at h
      simp only [Option.getD_some, dosesOn, List.mem_map, List.mem_filter] at h
      obtain ⟨t, ⟨ht, hd⟩, hn⟩ := h
      simp only [decide_eq_true_eq] at hd
      exact ⟨hr.2, hr.1, t, ht, hn, (mem_filteredDays.mp hd).1⟩
    · rw [if_neg hr] at h
      simp at h
  · intro d hd
    rw [byDayGet, byDay_char, if_neg (by omega)]
    rfl

/-- Witness for C2: in the two-therapy sample regimen, day 2 of a 3-day
cycle carries the name `"Aza"`, traced back to its day spec. -/
theorem byDay_within_cycle_witness :
    (2 : Int) ≤ 3 ∧ (1 : Int) ≤ 2 ∧
      ∃ t ∈ (⟨"S", none, none, [⟨"Aza", "IV", "75", "d", "1-3", none⟩]⟩ : Regimen).therapies,
        t.name = "Aza" ∧ (2 : Int) ∈ parse_day_spec t.duration :=
  (byDay_within_cycle ⟨"S", none, none, [⟨"Aza", "IV", "75", "d", "1-3", none⟩]⟩ 3).1
    2 "Aza" (by decide)

/-! ### The date walk characterised -/

/-- The cells for `n` consecutive dates starting at `d0`. -/
def cellsFrom (start maxDay : Int) (byDay : Int → Option (List String))
    (d0 : Int) (n : Nat) : List Cell :=
  (List.range n).map (fun (i : Nat) => mkCell start maxDay byDay (d0 + (i : Int)))

/-- Group a cell list into consecutive weeks of (at most) 7. -/
def chunks7 : List Cell → List (List Cell)
  | [] => []
  | c :: rest => ((c :: rest).take 7) :: chunks7 ((c :: rest).drop 7)
termination_by l => l.length
decreasing_by simp; omega

theorem chunks7_cons7 (w rest : List Cell) (h : w.length = 7) :
    chunks7 (w ++ rest) = w :: chunks7 rest := by
  cases w with
  | nil => simp at h
  | cons c w' =>
    rw [List.cons_append, chunks7]
    rw [← List.cons_append]
    congr 1
    · rw [List.take_append_eq_append_take, List.take_of_length_le (by omega), h]
      simp
    · rw [List.drop_append_eq_append_drop, List.drop_of_length_le (by omega), h]
      simp

theorem chunks7_flatten_aux : ∀ (n : Nat) (l : List Cell), l.length ≤ n →
    (chunks7 l).flatten = l := by
  intro n
  induction n with
  | zero =>
    intro l h
    have : l = [] := by cases l <;> simp_all
    simp [this, chunks7]
  | succ n ih =>
    intro l h
    cases l with
    | nil => simp [chunks7]
    | cons c rest =>
      rw [chunks7]
      simp only [List.flatten_cons]
      rw [ih _ (by simp at h ⊢; omega)]
      exact List.take_append_drop 7 (c :: rest)

theorem chunks7_flatten (l : List Cell) : (chunks7 l).flatten = l :=
  chunks7_flatten_aux l.length l le_rfl

theorem mem_chunks7_length_aux : ∀ (n : Nat) (l : List Cell) (w : List Cell),
    l.length ≤ n → 7 ∣ l.length → w ∈ chunks7 l → w.length = 7 := by
  intro n
  induction n with
  | zero =>
    intro l w h _ hw
    have : l = [] := by cases l <;> simp_all
    subst this
    simp [chunks7] at hw
  | succ n ih =>
    intro l w h hdvd hw
    cases l with
    | nil => simp [chunks7] at hw
    | cons c rest =>
      rw [chunks7] at hw
      have hlen : 7 ≤ (c :: rest).length := by
        rcases hdvd with ⟨k, hk⟩
        have : k ≠ 0 := by intro h0; subst h0; simp at hk
        simp at hk ⊢
        omega
      rcases List.mem_cons.mp hw with rfl | hw'
      · simp only [List.length_take]
        omega
      · refine ih _ _ (by simp at h ⊢; omega) ?_ hw'
        simp only [List.length_drop]
        rcases hdvd with ⟨k, hk⟩
        exact ⟨k - 1, by omega⟩

theorem mem_chunks7_length {l w : List Cell} (hdvd : 7 ∣ l.length)
    (hw : w ∈ chunks7 l) : w.length = 7 :=
  mem_chunks7_length_aux l.length l w le_rfl hdvd hw

theorem mem_of_mem_chunks7 {l w : List Cell} {c : Cell}
    (hw : w ∈ chunks7 l) (hc : c ∈ w) : c ∈ l := by
  rw [← chunks7_flatten l]
  exact List.mem_flatten.mpr ⟨w, hw, hc⟩

theorem cellsFrom_succ (start maxDay : Int) (byDay : Int → Option (List String))
    (d0 : Int) (n : Nat) :
    cellsFrom start maxDay byDay d0 (n + 1)
      = mkCell start maxDay byDay d0 :: cellsFrom start maxDay byDay (d0 + 1) n := by
  unfold cellsFrom
  rw [List.range_succ_eq_map, List.map_cons, List.map_map]
  congr 1
  · norm_num
  · refine List.map_congr_left ?_
    intro i _
    simp only [Function.comp_apply, Nat.succ_eq_add_one]
    congr 1
    push_cast
    ring

/-- The `while` loop of `compute_calendar_grid` groups the consecutive
cells into complete weeks, finishing with an empty partial week, whenever
the remaining day count is a multiple of 7. -/
theorem gridLoop_go (start maxDay lastSat : Int) (byDay : Int → Option (List String)) :
    ∀ (n : Nat) (d : Int) (week : List Cell) (grid : List (List Cell)),
      week.length < 7 → ((n : Int) + week.length) % 7 = 0 →
      (n : Int) = lastSat - d + 1 →
      gridLoop start maxDay lastSat byDay n d week grid
        = (grid ++ chunks7 (week ++ cellsFrom start maxDay byDay d n), [], d + n) := by
  intro n
  induction n with
  | zero =>
    intro d week grid hlt hmod hn
    have hweek : week = [] := by
      rw [← List.length_eq_zero]
      simp only [Nat.cast_zero] at hmod
      omega
    subst hweek
    simp [gridLoop, cellsFrom, chunks7]
  | succ n ih =>
    intro d week grid hlt hmod hn
    have hguard : d ≤ lastSat := by push_cast at hn; omega
    have hcast : ((n + 1 : Nat) : Int) = (n : Int) + 1 := by push_cast; ring
    simp only [gridLoop, if_pos hguard]
    rw [cellsFrom_succ]
    by_cases hlen : week.length = 6
    · rw [if_pos (by simp [hlen])]
      rw [ih (d + 1) [] (grid ++ [week ++ [mkCell start maxDay byDay d]])
        (by simp)
        (by
          simp only [List.length_nil, Nat.cast_zero, add_zero]
          rw [hcast, hlen] at hmod
          omega)
        (by rw [hcast] at hn; omega)]
      simp only [List.nil_append]
      rw [show week ++ mkCell start maxDay byDay d :: cellsFrom start maxDay byDay (d + 1) n
            = (week ++ [mkCell start maxDay byDay d]) ++ cellsFrom start maxDay byDay (d + 1) n by
          simp]
      rw [chunks7_cons7 (week ++ [mkCell start maxDay byDay d])
        (cellsFrom start maxDay byDay (d + 1) n) (by simp [hlen])]
      rw [Prod.mk.injEq, Prod.mk.injEq]
      refine ⟨by simp, rfl, ?_⟩
      rw [hcast]
      ring
    · rw [if_neg (by simp [hlen])]
      rw [ih (d + 1) (week ++ [mkCell start maxDay byDay d]) grid
        (by simp; omega)
        (by
          simp only [List.length_append, List.length_cons, List.length_nil]
          rw [hcast] at hmod
          push_cast at hmod ⊢
          omega)
        (by rw [hcast] at hn; omega)]
      rw [Prod.mk.injEq, Prod.mk.injEq]
      refine ⟨by simp, rfl, ?_⟩
      rw [hcast]
      ring

/-- `first_sun` of `compute_calendar_grid`. -/
def firstSunday (start : Int) : Int := start - (pyWeekday start + 1) % 7

/-- `last_sat` of `compute_calendar_grid` (with `max_day = cycleLen`). -/
def lastSaturday (start cl : Int) : Int :=
  start + (cl - 1) + (5 - pyWeekday (start + (cl - 1))) % 7

/-- Number of dates walked by the loop. -/
def spanLen (start cl : Int) : Nat := (lastSaturday start cl - firstSunday start + 1).toNat

/-- The full cell list of the computed grid, in date order. -/
def gridCells (reg : Regimen) (start cl : Int) : List Cell :=
  cellsFrom start cl (byDayOf reg cl) (firstSunday start) (spanLen start cl)

theorem span_mod7 (start cl : Int) :
    (lastSaturday start cl - firstSunday start + 1) % 7 = 0 := by
  unfold lastSaturday firstSunday pyWeekday
  omega

/-- `compute_calendar_grid` in closed form: the padding branch is dead and
the grid is the week-chunked consecutive cell list. -/
theorem compute_calendar_grid_eq (reg : Regimen) (start cl : Int) :
    compute_calendar_grid reg start cl
      = (firstSunday start, lastSaturday start cl, cl,
          chunks7 (gridCells reg start cl)) := by
  have hfst := aggregate_fst reg cl
  simp only [compute_calendar_grid]
  rw [hfst]
  have hls : start + (cl - 1) + (5 - pyWeekday (start + (cl - 1))) % 7
      = lastSaturday start cl := rfl
  have hfs : start - (pyWeekday start + 1) % 7 = firstSunday start := rfl
  have hbd : (aggregate reg cl).2 = byDayOf reg cl := rfl
  rw [hls, hfs, hbd]
  by_cases hpos : 0 ≤ lastSaturday start cl - firstSunday start + 1
  · have hn : ((lastSaturday start cl - firstSunday start + 1).toNat : Int)
        = lastSaturday start cl - firstSunday start + 1 := Int.toNat_of_nonneg hpos
    rw [gridLoop_go start cl (lastSaturday start cl) (byDayOf reg cl)
      _ _ [] [] (by simp) (by rw [hn]; simpa using span_mod7 start cl) (by rw [hn])]
    simp [gridCells, spanLen, byDayOf]
  · have h0 : (lastSaturday start cl - firstSunday start + 1).toNat = 0 := by omega
    rw [h0]
    simp only [gridLoop]
    simp [gridCells, spanLen, h0, cellsFrom, chunks7]

/-! ### Cell shape lemmas -/

theorem mkCell_date (start maxDay : Int) (byDay : Int → Option (List String))
    (d : Int) : (mkCell start maxDay byDay d).date = d := by
  simp only [mkCell]
  split_ifs <;> rfl

theorem mkCell_in (start maxDay : Int) (byDay : Int → Option (List String))
    (d : Int) (h1 : start ≤ d) (h2 : d ≤ start + (maxDay - 1)) :
    mkCell start maxDay byDay d
      = ⟨d, some (d - start + 1),
          if ((byDay (d - start + 1)).getD []).isEmpty then ["Rest"]
          else (byDay (d - start + 1)).getD []⟩ := by
  unfold mkCell
  rw [if_pos h1, if_pos (by omega)]

theorem mkCell_out (start maxDay : Int) (byDay : Int → Option (List String))
    (d : Int) (h : ¬(start ≤ d ∧ d ≤ start + (maxDay - 1))) :
    mkCell start maxDay byDay d = ⟨d, none, []⟩ := by
  unfold mkCell
  by_cases h1 : start ≤ d
  · rw [if_pos h1, if_neg (by omega)]
  · rw [if_neg h1]

theorem mem_gridCells {reg : Regimen} {start cl : Int} {c : Cell}
    (hc : c ∈ gridCells reg start cl) :
    c = mkCell start cl (byDayOf reg cl) c.date ∧
      firstSunday start ≤ c.date ∧ c.date ≤ lastSaturday start cl := by
  unfold gridCells cellsFrom at hc
  rw [List.mem_map] at hc
  obtain ⟨i, hi, rfl⟩ := hc
  rw [List.mem_range] at hi
  rw [mkCell_date]
  refine ⟨rfl, by omega, ?_⟩
  have : (i : Int) < ((spanLen start cl : Nat) : Int) := by exact_mod_cast hi
  unfold spanLen at this
  omega

theorem mem_grid_shape {reg : Regimen} {start cl : Int} {w : List Cell} {c : Cell}
    (hw : w ∈ (compute_calendar_grid reg start cl).2.2.2) (hc : c ∈ w) :
    c = mkCell start cl (byDayOf reg cl) c.date ∧
      firstSunday start ≤ c.date ∧ c.date ≤ lastSaturday start cl := by
  rw [compute_calendar_grid_eq] at hw
  exact mem_gridCells (mem_of_mem_chunks7 hw hc)

/-! ### Claims C3, C4, C5, C8 -/

/-- Claim C4: a cell carries a `cycleDay` exactly when its date lies in
`[start, start + maxDay - 1]`, and a present `cycleDay = cd` always
satisfies `date = start + (cd - 1)` and `1 ≤ cd ≤ maxDay`. -/
theorem grid_cycleDay_window (reg : Regimen) (start cl : Int) :
    ∀ w ∈ (compute_calendar_grid reg start cl).2.2.2, ∀ c ∈ w,
      (c.cycleDay.isSome = true ↔
        start ≤ c.date ∧
          c.date ≤ start + ((compute_calendar_grid reg start cl).2.2.1 - 1)) ∧
      (∀ cd, c.cycleDay = some cd →
        c.date = start + (cd - 1) ∧ 1 ≤ cd ∧
          cd ≤ (compute_calendar_grid reg start cl).2.2.1) := by
  intro w hw c hc
  obtain ⟨hshape, _, _⟩ := mem_grid_shape hw hc
  have hmax : (compute_calendar_grid reg start cl).2.2.1 = cl := by
    rw [compute_calendar_grid_eq]
  rw [hmax]
  by_cases hin : start ≤ c.date ∧ c.date ≤ start + (cl - 1)
  · have hc' : c.cycleDay = some (c.date - start + 1) := by
      rw [show c.cycleDay = (mkCell start cl (byDayOf reg cl) c.date).cycleDay from by
        rw [← hshape]]
      rw [mkCell_in _ _ _ _ hin.1 hin.2]
    refine ⟨by simp [hc', hin], ?_⟩
    intro cd hcd
    rw [hc'] at hcd
    simp only [Option.some.injEq] at hcd
    refine ⟨by omega, by omega, by omega⟩
  · have hc' : c.cycleDay = none := by
      rw [show c.cycleDay = (mkCell start cl (byDayOf reg cl) c.date).cycleDay from by
        rw [← hshape]]
      rw [mkCell_out _ _ _ _ hin]
    refine ⟨by simp [hc', hin], ?_⟩
    intro cd hcd
    rw [hc'] at hcd
    simp at hcd

/-- Claim C3: whenever a cell's `cycleDay = cd` is present, its labels are
exactly the names of the therapies whose filtered day set contains `cd`,
in regimen order, with the single sentinel `"Rest"` when no therapy doses
that day; labels of in-window cells are never empty, and a regimen with
zero therapies shows `"Rest"` on every in-window day. -/
theorem grid_labels_spec (reg : Regimen) (start cl : Int) :
    (∀ w ∈ (compute_calendar_grid reg start cl).2.2.2, ∀ c ∈ w,
      ∀ cd, c.cycleDay = some cd →
        c.labels = (if dosesOn reg cl cd = [] then ["Rest"] else dosesOn reg cl cd) ∧
          c.labels ≠ []) ∧
    (reg.therapies = [] →
      ∀ w ∈ (compute_calendar_grid reg start cl).2.2.2, ∀ c ∈ w,
        ∀ cd, c.cycleDay = some cd → c.labels = ["Rest"]) := by
  have hmain : ∀ w ∈ (compute_calendar_grid reg start cl).2.2.2, ∀ c ∈ w,
      ∀ cd, c.cycleDay = some cd →
        c.labels = (if dosesOn reg cl cd = [] then ["Rest"] else dosesOn reg cl cd) ∧
          c.labels ≠ [] := by
    intro w hw c hc cd hcd
    obtain ⟨hshape, _, _⟩ := mem_grid_shape hw hc
    by_cases hin : start ≤ c.date ∧ c.date ≤ start + (cl - 1)
    · have hc' : c.cycleDay = some (c.date - start + 1) := by
        rw [show c.cycleDay = (mkCell start cl (byDayOf reg cl) c.date).cycleDay from by
          rw [← hshape]]
        rw [mkCell_in _ _ _ _ hin.1 hin.2]
      have hlab : c.labels =
          if ((byDayOf reg cl (c.date - start + 1)).getD []).isEmpty then ["Rest"]
          else (byDayOf reg cl (c.date - start + 1)).getD [] := by
        rw [show c.labels = (mkCell start cl (byDayOf reg cl) c.date).labels from by
          rw [← hshape]]
        rw [mkCell_in _ _ _ _ hin.1 hin.2]
      rw [hc'] at hcd
      simp only [Option.some.injEq] at hcd
      have hcd_range : 1 ≤ cd ∧ cd ≤ cl := by omega
      have hby : byDayOf reg cl cd = some (dosesOn reg cl cd) := by
        rw [byDay_char, if_pos hcd_range]
      rw [hcd] at hlab
      rw [hlab, hby, Option.getD_some]
      constructor
      · by_cases hdos : dosesOn reg cl cd = []
        · rw [if_pos (by simp [hdos]), if_pos hdos]
        · rw [if_neg (by simpa using hdos), if_neg hdos]
      · by_cases hdos : dosesOn reg cl cd = []
        · rw [if_pos (by simp [hdos])]
          simp
        · rw [if_neg (by simpa using hdos)]
          exact hdos
    · have hc' : c.cycleDay = none := by
        rw [show c.cycleDay = (mkCell start cl (byDayOf reg cl) c.date).cycleDay from by
          rw [← hshape]]
        rw [mkCell_out _ _ _ _ hin]
      rw [hc'] at hcd
      simp at hcd
  refine ⟨hmain, ?_⟩
  intro hth w hw c hc cd hcd
  have h := (hmain w hw c hc cd hcd).1
  rw [h]
  have : dosesOn reg cl cd = [] := by simp [dosesOn, hth]
  rw [if_pos this]

/-- Sample regimen and grid pieces used by concrete witnesses. -/
def regW4 : Regimen := ⟨"W4", none, none, []⟩

/-- The single week produced for `regW4`, start ordinal 7 (a Sunday),
cycle length 1. -/
def w4week : List Cell :=
  [⟨7, some 1, ["Rest"]⟩, ⟨8, none, []⟩, ⟨9, none, []⟩, ⟨10, none, []⟩,
   ⟨11, none, []⟩, ⟨12, none, []⟩, ⟨13, none, []⟩]

/-- Witness for C4 on a concrete cell of a concrete grid. -/
theorem grid_cycleDay_window_witness :
    w4week ∈ (compute_calendar_grid regW4 7 1).2.2.2 ∧
      (⟨7, some 1, ["Rest"]⟩ : Cell) ∈ w4week ∧
      (((⟨7, some 1, ["Rest"]⟩ : Cell).cycleDay.isSome = true ↔
          (7 : Int) ≤ (⟨7, some 1, ["Rest"]⟩ : Cell).date ∧
            (⟨7, some 1, ["Rest"]⟩ : Cell).date
              ≤ 7 + ((compute_calendar_grid regW4 7 1).2.2.1 - 1)) ∧
        (∀ cd, (⟨7, some 1, ["Rest"]⟩ : Cell).cycleDay = some cd →
          (⟨7, some 1, ["Rest"]⟩ : Cell).date = 7 + (cd - 1) ∧ 1 ≤ cd ∧
            cd ≤ (compute_calendar_grid regW4 7 1).2.2.1)) :=
  ⟨by decide, by decide,
    grid_cycleDay_window regW4 7 1 w4week (by decide) ⟨7, some 1, ["Rest"]⟩ (by decide)⟩

/-- Sample one-therapy regimen for the C3 witness. -/
def regW3 : Regimen := ⟨"W3", none, none, [⟨"Aza", "IV", "75", "d", "1-2", none⟩]⟩

/-- Witness for C3: the day-1 cell of `regW3`'s grid carries exactly the
computed dose list. -/
theorem grid_labels_spec_witness :
    (⟨7, some 1, ["Aza"]⟩ : Cell).labels
        = (if dosesOn regW3 2 1 = [] then ["Rest"] else dosesOn regW3 2 1) ∧
      (⟨7, some 1, ["Aza"]⟩ : Cell).labels ≠ [] :=
  (grid_labels_spec regW3 7 2).1
    [⟨7, some 1, ["Aza"]⟩, ⟨8, some 2, ["Aza"]⟩, ⟨9, none, []⟩, ⟨10, none, []⟩,
     ⟨11, none, []⟩, ⟨12, none, []⟩, ⟨13, none, []⟩]
    (by decide) ⟨7, some 1, ["Aza"]⟩ (by decide) 1 (by decide)

/-- Claim C5: the computed window is week aligned — `firstSunday` is the
Sunday on or before `start` (equal to `start` on a Sunday),
`lastSaturday` is the Saturday on or after `start + maxDay - 1`, the span
length is a positive multiple of 7, and the grid is the sequence of 7-cell
week rows carrying the consecutive dates from `firstSunday` through
`lastSaturday` in order. -/
theorem grid_week_alignment (reg : Regimen) (start cl : Int) (h : 1 ≤ cl) :
    pyWeekday (compute_calendar_grid reg start cl).1 = 6 ∧
    (pyWeekday start = 6 → (compute_calendar_grid reg start cl).1 = start) ∧
    (compute_calendar_grid reg start cl).1 ≤ start ∧
    pyWeekday (compute_calendar_grid reg start cl).2.1 = 5 ∧
    start + ((compute_calendar_grid reg start cl).2.2.1 - 1)
      ≤ (compute_calendar_grid reg start cl).2.1 ∧
    (compute_calendar_grid reg start cl).1 ≤ (compute_calendar_grid reg start cl).2.1 ∧
    ((compute_calendar_grid reg start cl).2.1 - (compute_calendar_grid reg start cl).1 + 1) % 7
      = 0 ∧
    (∀ w ∈ (compute_calendar_grid reg start cl).2.2.2, w.length = 7) ∧
    ((compute_calendar_grid reg start cl).2.2.2).flatten.map Cell.date
      = (List.range (((compute_calendar_grid reg start cl).2.1
            - (compute_calendar_grid reg start cl).1 + 1).toNat)).map
          (fun (i : Nat) => (compute_calendar_grid reg start cl).1 + (i : Int)) := by
  rw [compute_calendar_grid_eq]
  simp only []
  refine ⟨?_, ?_, ?_, ?_, ?_, ?_, ?_, ?_, ?_⟩
  · unfold firstSunday pyWeekday; omega
  · unfold firstSunday pyWeekday; omega
  · unfold firstSunday pyWeekday; omega
  · unfold lastSaturday pyWeekday; omega
  · unfold lastSaturday pyWeekday; omega
  · unfold lastSaturday firstSunday pyWeekday; omega
  · exact span_mod7 start cl
  · intro w hw
    refine mem_chunks7_length ?_ hw
    have hlen : (gridCells reg start cl).length = spanLen start cl := by
      simp [gridCells, cellsFrom]
    rw [hlen]
    have := span_mod7 start cl
    unfold spanLen
    omega
  · rw [chunks7_flatten]
    unfold gridCells cellsFrom spanLen
    rw [List.map_map]
    refine List.map_congr_left ?_
    intro i _
    simp [Function.comp, mkCell_date]

/-- Witness for C5 at a Sunday start with a one-day cycle. -/
theorem grid_week_alignment_witness :
    (1 : Int) ≤ 1 ∧
      pyWeekday (compute_calendar_grid ⟨"W", none, none, []⟩ 7 1).1 = 6 :=
  ⟨by decide, (grid_week_alignment ⟨"W", none, none, []⟩ 7 1 (by decide)).1⟩

/-- Claim C8: `compute_calendar_grid` is deterministic and idempotent —
structurally identical inputs give structurally identical outputs (the
embedding is a pure function of its three arguments). -/
theorem compute_calendar_grid_deterministic (r1 r2 : Regimen) (s1 s2 c1 c2 : Int)
    (hr : r1 = r2) (hs : s1 = s2) (hc : c1 = c2) :
    compute_calendar_grid r1 s1 c1 = compute_calendar_grid r2 s2 c2 := by
  subst hr; subst hs; subst hc; rfl

/-- Witness for C8: two identical calls on a sample input coincide. -/
theorem compute_calendar_grid_deterministic_witness :
    compute_calendar_grid ⟨"W8", none, none, []⟩ 7 1
      = compute_calendar_grid ⟨"W8", none, none, []⟩ 7 1 :=
  compute_calendar_grid_deterministic _ _ 7 7 1 1 rfl rfl rfl

/-! ### Claim C9: the text layout of `make_calendar_text` -/

theorem cellBlock_length_pos (c : Cell) : 0 < (cellBlock c).length := by
  unfold cellBlock
  cases c.cycleDay <;> simp

theorem foldl_maxlen_acc_le (l : List (List String)) (a : Nat) :
    a ≤ l.foldl (fun m b => max m b.length) a := by
  induction l generalizing a with
  | nil => simp
  | cons c cs ih => exact le_trans (le_max_left a c.length) (ih (max a c.length))

theorem le_foldl_maxlen (l : List (List String)) (a : Nat) {b : List String}
    (hb : b ∈ l) : b.length ≤ l.foldl (fun m b => max m b.length) a := by
  induction l generalizing a with
  | nil => simp at hb
  | cons c cs ih =>
    rcases List.mem_cons.mp hb with rfl | hb'
    · exact le_trans (le_max_right a b.length) (foldl_maxlen_acc_le cs _)
    · exact ih _ hb'

theorem foldl_maxlen_cases (l : List (List String)) (a : Nat) :
    l.foldl (fun m b => max m b.length) a = a ∨
      ∃ b ∈ l, l.foldl (fun m b => max m b.length) a = b.length := by
  induction l generalizing a with
  | nil => exact Or.inl rfl
  | cons c cs ih =>
    rcases ih (max a c.length) with h | ⟨b, hb, h⟩
    · simp only [List.foldl_cons]
      rcases Nat.le_total a c.length with hle | hle
      · refine Or.inr ⟨c, List.mem_cons_self _ _, ?_⟩
        rw [h, max_eq_right hle]
      · refine Or.inl ?_
        rw [h, max_eq_left hle]
    · exact Or.inr ⟨b, List.mem_cons.mpr (Or.inr hb), h⟩

theorem maxhOf_ge (w : List Cell) (c : Cell) (hc : c ∈ w) :
    (cellBlock c).length ≤ maxhOf w :=
  le_foldl_maxlen _ 0 (List.mem_map.mpr ⟨c, hc, rfl⟩)

theorem maxhOf_attained (w : List Cell) (hw : w ≠ []) :
    ∃ c ∈ w, (cellBlock c).length = maxhOf w := by
  rcases foldl_maxlen_cases (w.map cellBlock) 0 with h | ⟨b, hb, h⟩
  · cases w with
    | nil => exact absurd rfl hw
    | cons c cs =>
      have hle := maxhOf_ge (c :: cs) c (List.mem_cons_self _ _)
      have : maxhOf (c :: cs) = 0 := h
      have := cellBlock_length_pos c
      omega
  · obtain ⟨c, hc, rfl⟩ := List.mem_map.mp hb
    exact ⟨c, hc, h.symm⟩

theorem weekBody_length (w : List Cell) : (weekBody w).length = maxhOf w := by
  simp [weekBody]

theorem weekBody_getD (w : List Cell) (r : Nat) (hr : r < maxhOf w) :
    (weekBody w).getD r ""
      = String.intercalate " " (w.map (fun c => ljust 12 ((cellBlock c).getD r ""))) := by
  unfold weekBody
  rw [List.getD_eq_getElem _ _ (by simpa using hr)]
  rw [List.getElem_map, List.getElem_range, List.map_map]
  rfl

/-- Each week of the grid has 7 cells (no cycle-length hypothesis needed:
the walk is always Sunday-to-Saturday aligned). -/
theorem grid_weeks_length (reg : Regimen) (start cl : Int) :
    ∀ w ∈ (compute_calendar_grid reg start cl).2.2.2, w.length = 7 := by
  intro w hw
  rw [compute_calendar_grid_eq] at hw
  refine mem_chunks7_length ?_ hw
  have hlen : (gridCells reg start cl).length = spanLen start cl := by
    simp [gridCells, cellsFrom]
  rw [hlen]
  have := span_mod7 start cl
  unfold spanLen
  omega

/-- Claim C9: `make_calendar_text` renders, after the banner lines, one
block per week consisting of exactly `maxh` rows — `maxh` the height of
the week's tallest cell block — where row `r` joins the 7 cells' `r`-th
entries (date header first, then `"Day N"` and the labels for in-window
cells; blank where a cell is shorter), each left-justified to the 12-column
width and joined by single blanks, and exactly one blank separator line
closes each week block. -/
theorem make_calendar_text_layout (reg : Regimen) (start cl : Int)
    (label : String) (note : Option String) :
    (makeCalendarLines reg start cl label note
      = calendarHeader reg (compute_calendar_grid reg start cl).1
          (compute_calendar_grid reg start cl).2.1 label note
        ++ ((compute_calendar_grid reg start cl).2.2.2).flatMap weekRender) ∧
    (∀ w ∈ (compute_calendar_grid reg start cl).2.2.2,
      weekRender w = weekBody w ++ [""] ∧
      (weekBody w).length = maxhOf w ∧
      (w.map (fun c => ljust 12 ((cellBlock c).getD 0 ""))).length = 7 ∧
      (∀ c ∈ w, (cellBlock c).length ≤ maxhOf w) ∧
      (∃ c ∈ w, (cellBlock c).length = maxhOf w) ∧
      (∀ r, r < maxhOf w →
        (weekBody w).getD r ""
          = String.intercalate " "
              (w.map (fun c => ljust 12 ((cellBlock c).getD r ""))))) ∧
    (∀ (c : Cell) (cd : Int), c.cycleDay = some cd →
      cellBlock c
        = (monthAbbr (dateMonth c.date) ++ " " ++ toString (dateDay c.date))
            :: ("Day " ++ toString cd) :: c.labels) ∧
    make_calendar_text reg start cl label note
      = String.intercalate "\n" (makeCalendarLines reg start cl label note) := by
  refine ⟨?_, ?_, ?_, rfl⟩
  · simp only [makeCalendarLines]
    rw [foldl_append_eq_flatMap]
  · intro w hw
    have h7 : w.length = 7 := grid_weeks_length reg start cl w hw
    refine ⟨rfl, weekBody_length w, by simp [h7], fun c hc => maxhOf_ge w c hc,
      maxhOf_attained w (by intro h; rw [h] at h7; simp at h7),
      fun r hr => weekBody_getD w r hr⟩
  · intro c cd hcd
    unfold cellBlock
    rw [hcd]

/-- Witness for C9 at a concrete one-week grid. -/
theorem make_calendar_text_layout_witness :
    w4week ∈ (compute_calendar_grid regW4 7 1).2.2.2 ∧
      (weekRender w4week = weekBody w4week ++ [""] ∧
        (weekBody w4week).length = maxhOf w4week ∧
        (w4week.map (fun c => ljust 12 ((cellBlock c).getD 0 ""))).length = 7 ∧
        (∀ c ∈ w4week, (cellBlock c).length ≤ maxhOf w4week) ∧
        (∃ c ∈ w4week, (cellBlock c).length = maxhOf w4week) ∧
        (∀ r, r < maxhOf w4week →
          (weekBody w4week).getD r ""
            = String.intercalate " "
                (w4week.map (fun c => ljust 12 ((cellBlock c).getD r ""))))) :=
  ⟨by decide,
    (make_calendar_text_layout regW4 7 1 "Cycle 1" none).2.1 w4week (by decide)⟩

/-! ### Claim C10: the two parsers on well-formed `days …` inputs

The claim quantifies over strings of the shape
`label ++ whitespace ++ token (sep token)*`; this grammar is embedded as
`DaysInput` with a renderer, and the claim becomes a statement about all
rendered inputs. -/

/-- A well-formed token: a bare integer or an `A-B` range. -/
inductive DTok where
  | bare : Int → DTok
  | rng : Int → Int → Char → DTok
deriving DecidableEq, Repr

/-- The decimal digit characters. -/
def digitChar : Nat → Char
  | 0 => '0' | 1 => '1' | 2 => '2' | 3 => '3' | 4 => '4'
  | 5 => '5' | 6 => '6' | 7 => '7' | 8 => '8' | 9 => '9'
  | _ => '?'

/-- Fuelled worker for `natChars` (structural recursion, so that rendered
inputs evaluate inside `decide`). -/
def natCharsGo : Nat → Nat → List Char
  | 0, _ => []
  | fuel + 1, n =>
    if n < 10 then [digitChar n] else natCharsGo fuel (n / 10) ++ [digitChar (n % 10)]

/-- Canonical decimal rendering of a natural number. -/
def natChars (n : Nat) : List Char := natCharsGo (n + 1) n

theorem natCharsGo_fuel : ∀ (n f1 f2 : Nat), n < f1 → n < f2 →
    natCharsGo f1 n = natCharsGo f2 n := by
  intro n
  induction n using Nat.strong_induction_on with
  | _ n ih =>
    intro f1 f2 h1 h2
    cases f1 with
    | zero => omega
    | succ g1 =>
      cases f2 with
      | zero => omega
      | succ g2 =>
        simp only [natCharsGo]
        by_cases h : n < 10
        · rw [if_pos h, if_pos h]
        · rw [if_neg h, if_neg h]
          have hlt : n / 10 < n := Nat.div_lt_self (by omega) (by omega)
          rw [ih (n / 10) hlt g1 g2 (by omega) (by omega)]

theorem natChars_eq (n : Nat) :
    natChars n = if n < 10 then [digitChar n]
      else natChars (n / 10) ++ [digitChar (n % 10)] := by
  show natCharsGo (n + 1) n = _
  simp only [natCharsGo]
  by_cases h : n < 10
  · rw [if_pos h, if_pos h]
  · rw [if_neg h, if_neg h]
    have hlt : n / 10 < n := Nat.div_lt_self (by omega) (by omega)
    rw [natCharsGo_fuel (n / 10) n (n / 10 + 1) (by omega) (by omega)]
    rfl

/-- Render one token (the range dash may be a hyphen or an en-dash). -/
def renderTok : DTok → List Char
  | .bare n => natChars n.toNat
  | .rng a b dash => natChars a.toNat ++ dash :: natChars b.toNat

/-- A `days`-labelled input: label, whitespace, then tokens with
separators. -/
structure DaysInput where
  label : List Char
  ws : List Char
  firstTok : DTok
  restToks : List (List Char × DTok)

/-- The token part of the rendered string. -/
def renderBody (inp : DaysInput) : List Char :=
  renderTok inp.firstTok ++ inp.restToks.flatMap (fun p => p.1 ++ renderTok p.2)

/-- The full rendered input string. -/
def renderInput (inp : DaysInput) : String :=
  String.mk (inp.label ++ inp.ws ++ renderBody inp)

/-- A character equal to a given lower- or upper-case letter. -/
def caseOf (lo up c : Char) : Prop := c = lo ∨ c = up

/-- Well-formed token values: positive days, ranges `1 ≤ A ≤ B` with a
hyphen or en-dash. -/
def wfTok : DTok → Prop
  | .bare n => 1 ≤ n
  | .rng a b dash => 1 ≤ a ∧ a ≤ b ∧ (dash = '-' ∨ dash = '–')

instance wfTokDecidable (t : DTok) : Decidable (wfTok t) :=
  match t with
  | .bare n => inferInstanceAs (Decidable (1 ≤ n))
  | .rng a b dash =>
      inferInstanceAs (Decidable (1 ≤ a ∧ a ≤ b ∧ (dash = '-' ∨ dash = '–')))

/-- A separator: a nonempty run of commas/whitespace. -/
def wfSep (sep : List Char) : Prop := sep ≠ [] ∧ ∀ c ∈ sep, isSep c = true

/-- Well-formed input: the label is `days` in any letter case, the gap
after it is nonempty whitespace, and every token is well formed. -/
def wfInput (inp : DaysInput) : Prop :=
  (∃ c1 c2 c3 c4, inp.label = [c1, c2, c3, c4] ∧ caseOf 'd' 'D' c1 ∧
    caseOf 'a' 'A' c2 ∧ caseOf 'y' 'Y' c3 ∧ caseOf 's' 'S' c4) ∧
  inp.ws ≠ [] ∧ (∀ c ∈ inp.ws, isPySpace c = true) ∧
  wfTok inp.firstTok ∧
  (∀ p ∈ inp.restToks, wfSep p.1 ∧ wfTok p.2)

/-- No newline in the whitespace runs of the input. -/
def noNewline (inp : DaysInput) : Prop :=
  (∀ c ∈ inp.ws, c ≠ '\n') ∧ ∀ p ∈ inp.restToks, ∀ c ∈ p.1, c ≠ '\n'

/-- The days denoted by one token. -/
def tokDays : DTok → List Int
  | .bare n => [n]
  | .rng a b _ => (List.range (b + 1 - a).toNat).map (fun (i : Nat) => a + (i : Int))

/-- All tokens of an input, in order. -/
def inputToks (inp : DaysInput) : List DTok :=
  inp.firstTok :: inp.restToks.map (fun p => p.2)

/-- Replace the dash of a range token by a plain hyphen. -/
def hyphenate : DTok → DTok
  | .bare n => .bare n
  | .rng a b _ => .rng a b '-'

/-! #### Digit-character facts -/

theorem digitChar_facts (d : Nat) (h : d < 10) :
    (digitChar d).isDigit = true ∧ isSep (digitChar d) = false ∧
    isPySpace (digitChar d) = false ∧ digitChar d ≠ '–' ∧ digitChar d ≠ '-' ∧
    digitChar d ≠ '\n' ∧ digitChar d ≠ '+' ∧ digitChar d ≠ '_' ∧
    lowerChar (digitChar d) = digitChar d ∧ digitChar d ≠ ':' ∧
    (digitChar d).toNat = 48 + d := by
  interval_cases d <;> exact ⟨by decide, by decide, by decide, by decide, by decide,
    by decide, by decide, by decide, by decide, by decide, by decide⟩

theorem natChars_shape (n : Nat) :
    natChars n ≠ [] ∧ ∀ c ∈ natChars n, ∃ d, d < 10 ∧ c = digitChar d := by
  induction n using Nat.strong_induction_on with
  | _ n ih =>
    rw [natChars_eq]
    by_cases h : n < 10
    · rw [if_pos h]
      exact ⟨by simp, by intro c hc; rw [List.mem_singleton] at hc; exact ⟨n, h, hc⟩⟩
    · rw [if_neg h]
      have hdiv := ih (n / 10) (Nat.div_lt_self (by omega) (by omega))
      refine ⟨by simp, ?_⟩
      intro c hc
      rcases List.mem_append.mp hc with hc' | hc'
      · exact hdiv.2 c hc'
      · rw [List.mem_singleton] at hc'
        exact ⟨n % 10, Nat.mod_lt _ (by omega), hc'⟩

theorem natChars_head (n : Nat) :
    ∃ d tl, d < 10 ∧ natChars n = digitChar d :: tl := by
  obtain ⟨hne, hall⟩ := natChars_shape n
  cases hh : natChars n with
  | nil => exact absurd hh hne
  | cons c tl =>
    obtain ⟨d, hd, rfl⟩ := hall c (by rw [hh]; exact List.mem_cons_self _ _)
    exact ⟨d, tl, hd, rfl⟩

theorem natChars_last (n : Nat) :
    ∃ f d, d < 10 ∧ natChars n = f ++ [digitChar d] := by
  rw [natChars_eq]
  by_cases h : n < 10
  · rw [if_pos h]
    exact ⟨[], n, h, rfl⟩
  · rw [if_neg h]
    exact ⟨natChars (n / 10), n % 10, Nat.mod_lt _ (by omega), rfl⟩

/-! #### Python `int` round trip on canonical digit strings -/

theorem vTail_all_digits (l : List Char) (prev : Char)
    (hprev : prev.isDigit = true) (h : ∀ c ∈ l, c.isDigit = true) :
    vTail prev l = true := by
  induction l generalizing prev with
  | nil => simpa [vTail] using hprev
  | cons c rest ih =>
    have hc := h c (List.mem_cons_self _ _)
    simp only [vTail, hc, Bool.true_or, Bool.true_and]
    exact ih c hc (fun x hx => h x (List.mem_cons.mpr (Or.inr hx)))

theorem validIntBody_digits (l : List Char) (hne : l ≠ [])
    (h : ∀ c ∈ l, c.isDigit = true) : validIntBody l = true := by
  cases l with
  | nil => exact absurd rfl hne
  | cons c rest =>
    have hc := h c (List.mem_cons_self _ _)
    simp only [validIntBody, hc, Bool.true_and]
    exact vTail_all_digits rest c hc (fun x hx => h x (List.mem_cons.mpr (Or.inr hx)))

theorem isDigit_ne_underscore {c : Char} (h : c.isDigit = true) : c ≠ '_' := by
  intro rfl'
  subst rfl'
  simp [Char.isDigit] at h

theorem filter_underscore_digits (l : List Char) (h : ∀ c ∈ l, c.isDigit = true) :
    l.filter (fun c => c ≠ '_') = l := by
  refine List.filter_eq_self.mpr ?_
  intro c hc
  simpa using isDigit_ne_underscore (h c hc)

theorem digitsVal_append_digit (l : List Char) (c : Char) :
    digitsVal (l ++ [c]) = 10 * digitsVal l + (c.toNat - 48) := by
  simp [digitsVal, List.foldl_append]

theorem digitsVal_natChars (n : Nat) : digitsVal (natChars n) = n := by
  induction n using Nat.strong_induction_on with
  | _ n ih =>
    rw [natChars_eq]
    by_cases h : n < 10
    · rw [if_pos h]
      have := (digitChar_facts n h).2.2.2.2.2.2.2.2.2.2
      simp [digitsVal, this]
    · rw [if_neg h]
      rw [digitsVal_append_digit, ih (n / 10) (Nat.div_lt_self (by omega) (by omega))]
      have := (digitChar_facts (n % 10) (Nat.mod_lt _ (by omega))).2.2.2.2.2.2.2.2.2.2
      rw [this]
      omega

theorem natChars_all_digits (n : Nat) : ∀ c ∈ natChars n, c.isDigit = true := by
  intro c hc
  obtain ⟨d, hd, rfl⟩ := (natChars_shape n).2 c hc
  exact (digitChar_facts d hd).1

theorem pyNat_natChars (n : Nat) : pyNat (natChars n) = some n := by
  unfold pyNat
  rw [if_pos (validIntBody_digits _ (natChars_shape n).1 (natChars_all_digits n))]
  rw [filter_underscore_digits _ (natChars_all_digits n), digitsVal_natChars]

theorem pyInt_natChars (n : Nat) : pyInt (natChars n) = some (n : Int) := by
  obtain ⟨d, tl, hd, hh⟩ := natChars_head n
  unfold pyInt
  rw [if_neg (by
    rw [hh]
    simp only [List.head?_cons, Option.some.injEq]
    exact (digitChar_facts d hd).2.2.2.2.2.2.1)]
  rw [if_neg (by
    rw [hh]
    simp only [List.head?_cons, Option.some.injEq]
    exact (digitChar_facts d hd).2.2.2.2.1)]
  rw [pyNat_natChars]
  rfl

/-! #### `tokenDays` on rendered tokens -/

theorem takeWhile_append_stop (p : Char → Bool) (l : List Char) (y : Char)
    (rest : List Char) (hl : ∀ c ∈ l, p c = true) (hy : p y = false) :
    (l ++ y :: rest).takeWhile p = l ∧ (l ++ y :: rest).dropWhile p = y :: rest := by
  induction l with
  | nil => simp [List.takeWhile_cons, List.dropWhile_cons, hy]
  | cons c cs ih =>
    have hc := hl c (List.mem_cons_self _ _)
    have := ih (fun x hx => hl x (List.mem_cons.mpr (Or.inr hx)))
    simp [List.takeWhile_cons, List.dropWhile_cons, hc, this.1, this.2]

theorem natChars_no_hyphen (n : Nat) : ∀ c ∈ natChars n, c ≠ '-' := by
  intro c hc
  obtain ⟨d, hd, rfl⟩ := (natChars_shape n).2 c hc
  exact (digitChar_facts d hd).2.2.2.2.1

theorem hasChar_eq_false {l : List Char} {x : Char} (h : ∀ c ∈ l, c ≠ x) :
    hasChar l x = false := by
  simp only [hasChar, List.any_eq_false]
  intro c hc
  simpa using h c hc

theorem tokenDays_bare (n : Int) (h : 1 ≤ n) :
    tokenDays (renderTok (.bare n)) = tokDays (.bare n) := by
  unfold renderTok tokDays
  unfold tokenDays
  rw [hasChar_eq_false (natChars_no_hyphen n.toNat)]
  simp only [Bool.false_eq_true, if_false]
  rw [pyInt_natChars, Int.toNat_of_nonneg (by omega)]

theorem tokenDays_rng (a b : Int) (h1 : 1 ≤ a) (hab : a ≤ b) :
    tokenDays (renderTok (.rng a b '-')) = tokDays (.rng a b '-') := by
  unfold renderTok tokDays
  unfold tokenDays
  have hhas : hasChar (natChars a.toNat ++ '-' :: natChars b.toNat) '-' = true := by
    simp [hasChar]
  rw [hhas, if_pos rfl]
  have hsplit := takeWhile_append_stop (fun c => c ≠ '-') (natChars a.toNat) '-'
    (natChars b.toNat)
    (by intro c hc; simpa using natChars_no_hyphen a.toNat c hc) (by simp)
  rw [hsplit.1, hsplit.2]
  simp only [List.tail_cons]
  rw [pyInt_natChars, pyInt_natChars]
  rw [Int.toNat_of_nonneg (by omega), Int.toNat_of_nonneg (by omega)]
  simp only [if_pos hab]

/-! #### Splitting a rendered body into its tokens -/

theorem tokenizeGo_skip_seps (sep rest : List Char)
    (h : ∀ c ∈ sep, isSep c = true) :
    tokenizeGo (sep ++ rest) [] = tokenizeGo rest [] := by
  induction sep with
  | nil => rfl
  | cons c cs ih =>
    have hc := h c (List.mem_cons_self _ _)
    simp only [List.cons_append, tokenizeGo, hc, if_true, if_pos rfl]
    exact ih (fun x hx => h x (List.mem_cons.mpr (Or.inr hx)))

theorem tokenizeGo_token (tok rest cur : List Char)
    (h : ∀ c ∈ tok, isSep c = false) :
    tokenizeGo (tok ++ rest) cur = tokenizeGo rest (tok.reverse ++ cur) := by
  induction tok generalizing cur with
  | nil => simp
  | cons c cs ih =>
    have hc := h c (List.mem_cons_self _ _)
    simp only [List.cons_append, tokenizeGo, hc, Bool.false_eq_true, if_false,
      List.append_eq]
    rw [ih (c :: cur) (fun x hx => h x (List.mem_cons.mpr (Or.inr hx)))]
    congr 1
    simp

theorem tokenizeGo_emit (sep rest cur : List Char) (hcur : cur ≠ [])
    (hne : sep ≠ []) (hsep : ∀ c ∈ sep, isSep c = true) :
    tokenizeGo (sep ++ rest) cur = cur.reverse :: tokenizeGo rest [] := by
  cases sep with
  | nil => exact absurd rfl hne
  | cons c cs =>
    have hc := hsep c (List.mem_cons_self _ _)
    simp only [List.cons_append, tokenizeGo, hc, if_true, if_neg hcur, List.append_eq]
    rw [tokenizeGo_skip_seps cs rest (fun x hx => hsep x (List.mem_cons.mpr (Or.inr hx)))]

theorem tokenize_pairs : ∀ (pairs : List (List Char × List Char)) (first : List Char),
    first ≠ [] → (∀ c ∈ first, isSep c = false) →
    (∀ p ∈ pairs, (p.1 ≠ [] ∧ ∀ c ∈ p.1, isSep c = true) ∧
      (p.2 ≠ [] ∧ ∀ c ∈ p.2, isSep c = false)) →
    tokenize (first ++ pairs.flatMap (fun p => p.1 ++ p.2))
      = first :: pairs.map (fun p => p.2) := by
  intro pairs
  induction pairs with
  | nil =>
    intro first hne hns _
    unfold tokenize
    simp only [List.flatMap_nil, List.append_nil]
    rw [show first = first ++ [] by simp, tokenizeGo_token first [] [] hns]
    simp only [List.append_nil, tokenizeGo]
    rw [if_neg (by simpa using hne)]
    simp
  | cons p ps ih =>
    intro first hne hns hp
    obtain ⟨⟨hsne, hsall⟩, htne, htall⟩ := hp p (List.mem_cons_self _ _)
    unfold tokenize
    simp only [List.flatMap_cons]
    rw [show first ++ ((p.1 ++ p.2) ++ ps.flatMap (fun p => p.1 ++ p.2))
          = first ++ (p.1 ++ (p.2 ++ ps.flatMap (fun p => p.1 ++ p.2))) by simp]
    rw [tokenizeGo_token first _ [] hns]
    rw [List.append_nil]
    rw [tokenizeGo_emit p.1 _ first.reverse (by simpa using hne) hsne hsall]
    rw [List.reverse_reverse]
    have := ih p.2 htne htall
      (fun q hq => hp q (List.mem_cons.mpr (Or.inr hq)))
    unfold tokenize at this
    rw [this]
    simp

/-! #### Character-class consequences -/

theorem isPySpace_cases {c : Char} (h : isPySpace c = true) :
    c = ' ' ∨ c = '\t' ∨ c = '\n' ∨ c = '\r' ∨ c = '\x0b' ∨ c = '\x0c' := by
  simpa [isPySpace, decide_eq_true_eq] using h

theorem isPySpace_props {c : Char} (h : isPySpace c = true) :
    c ≠ '–' ∧ lowerChar c = c := by
  rcases isPySpace_cases h with rfl | rfl | rfl | rfl | rfl | rfl <;>
    exact ⟨by decide, by decide⟩

theorem isSep_cases {c : Char} (h : isSep c = true) :
    c = ',' ∨ isPySpace c = true := by
  simpa [isSep, decide_eq_true_eq, isPySpace] using h

theorem isSep_props {c : Char} (h : isSep c = true) :
    c ≠ '–' ∧ lowerChar c = c := by
  rcases isSep_cases h with rfl | hs
  · exact ⟨by decide, by decide⟩
  · exact isPySpace_props hs

theorem caseOf_label_d {c : Char} (h : caseOf 'd' 'D' c) :
    c ≠ '–' ∧ isPySpace c = false ∧ lowerChar c = 'd' := by
  rcases h with rfl | rfl <;> exact ⟨by decide, by decide, by decide⟩

theorem caseOf_label_a {c : Char} (h : caseOf 'a' 'A' c) :
    c ≠ '–' ∧ lowerChar c = 'a' := by
  rcases h with rfl | rfl <;> exact ⟨by decide, by decide⟩

theorem caseOf_label_y {c : Char} (h : caseOf 'y' 'Y' c) :
    c ≠ '–' ∧ lowerChar c = 'y' := by
  rcases h with rfl | rfl <;> exact ⟨by decide, by decide⟩

theorem caseOf_label_s {c : Char} (h : caseOf 's' 'S' c) :
    c ≠ '–' ∧ lowerChar c = 's' := by
  rcases h with rfl | rfl <;> exact ⟨by decide, by decide⟩

/-- Characters of a hyphen-normalised rendered token. -/
theorem renderTokH_chars (t : DTok) :
    ∀ c ∈ renderTok (hyphenate t), (∃ d, d < 10 ∧ c = digitChar d) ∨ c = '-' := by
  cases t with
  | bare n =>
    intro c hc
    exact Or.inl ((natChars_shape _).2 c hc)
  | rng a b dash =>
    intro c hc
    simp only [hyphenate, renderTok] at hc
    rcases List.mem_append.mp hc with h | h
    · exact Or.inl ((natChars_shape _).2 c h)
    · rcases List.mem_cons.mp h with rfl | h'
      · exact Or.inr rfl
      · exact Or.inl ((natChars_shape _).2 c h')

theorem tokH_char_props {t : DTok} {c : Char} (hc : c ∈ renderTok (hyphenate t)) :
    isSep c = false ∧ c ≠ '\n' ∧ c ≠ '–' ∧ lowerChar c = c ∧ isPySpace c = false := by
  rcases renderTokH_chars t c hc with ⟨d, hd, rfl⟩ | rfl
  · have h := digitChar_facts d hd
    exact ⟨h.2.1, h.2.2.2.2.2.1, h.2.2.2.1, h.2.2.2.2.2.2.2.2.1, h.2.2.1⟩
  · exact ⟨by decide, by decide, by decide, by decide, by decide⟩

theorem renderTok_ne_nil (t : DTok) : renderTok (hyphenate t) ≠ [] := by
  cases t with
  | bare n => exact (natChars_shape _).1
  | rng a b dash =>
    simp only [hyphenate, renderTok]
    intro h
    exact (natChars_shape a.toNat).1 (List.append_eq_nil.mp h).1

theorem renderTokH_head_digit (t : DTok) :
    ∃ d tl, d < 10 ∧ renderTok (hyphenate t) = digitChar d :: tl := by
  cases t with
  | bare n =>
    obtain ⟨d, tl, hd, hh⟩ := natChars_head n.toNat
    exact ⟨d, tl, hd, hh⟩
  | rng a b dash =>
    obtain ⟨d, tl, hd, hh⟩ := natChars_head a.toNat
    refine ⟨d, tl ++ '-' :: natChars b.toNat, hd, ?_⟩
    simp [hyphenate, renderTok, hh]

theorem renderTokH_last_digit (t : DTok) :
    ∃ f d, d < 10 ∧ renderTok (hyphenate t) = f ++ [digitChar d] := by
  cases t with
  | bare n =>
    obtain ⟨f, d, hd, hh⟩ := natChars_last n.toNat
    exact ⟨f, d, hd, hh⟩
  | rng a b dash =>
    obtain ⟨f, d, hd, hh⟩ := natChars_last b.toNat
    refine ⟨natChars a.toNat ++ '-' :: f, d, hd, ?_⟩
    simp [hyphenate, renderTok, hh]

/-- Hyphen-normalised body of a rendered input. -/
def bodyH (inp : DaysInput) : List Char :=
  renderTok (hyphenate inp.firstTok)
    ++ inp.restToks.flatMap (fun p => p.1 ++ renderTok (hyphenate p.2))

theorem bodyH_head_digit (inp : DaysInput) :
    ∃ d tl, d < 10 ∧ bodyH inp = digitChar d :: tl := by
  obtain ⟨d, tl, hd, hh⟩ := renderTokH_head_digit inp.firstTok
  exact ⟨d, tl ++ inp.restToks.flatMap (fun p => p.1 ++ renderTok (hyphenate p.2)), hd,
    by simp [bodyH, hh]⟩

theorem bodyH_last_digit (inp : DaysInput) :
    ∃ f d, d < 10 ∧ bodyH inp = f ++ [digitChar d] := by
  unfold bodyH
  induction inp.restToks using List.reverseRecOn with
  | nil =>
    obtain ⟨f, d, hd, hh⟩ := renderTokH_last_digit inp.firstTok
    exact ⟨f, d, hd, by simp [hh]⟩
  | append_singleton ps p _ =>
    obtain ⟨f, d, hd, hh⟩ := renderTokH_last_digit p.2
    refine ⟨renderTok (hyphenate inp.firstTok)
      ++ ps.flatMap (fun p => p.1 ++ renderTok (hyphenate p.2)) ++ p.1 ++ f, d, hd, ?_⟩
    simp [hh, List.flatMap_append]

/-- Every character of the body: a digit, a hyphen, or a separator char. -/
theorem bodyH_chars (inp : DaysInput) (hwf : wfInput inp) :
    ∀ c ∈ bodyH inp,
      (∃ d, d < 10 ∧ c = digitChar d) ∨ c = '-' ∨ c ∈ inp.restToks.flatMap (fun p => p.1) := by
  intro c hc
  unfold bodyH at hc
  rcases List.mem_append.mp hc with h | h
  · rcases renderTokH_chars _ c h with h' | h'
    · exact Or.inl h'
    · exact Or.inr (Or.inl h')
  · rw [List.mem_flatMap] at h
    obtain ⟨p, hp, hcp⟩ := h
    rcases List.mem_append.mp hcp with h' | h'
    · exact Or.inr (Or.inr (List.mem_flatMap.mpr ⟨p, hp, h'⟩))
    · rcases renderTokH_chars _ c h' with h'' | h''
      · exact Or.inl h''
      · exact Or.inr (Or.inl h'')

theorem bodyH_ne_enDash (inp : DaysInput) (hwf : wfInput inp) :
    ∀ c ∈ bodyH inp, c ≠ '–' := by
  intro c hc
  rcases bodyH_chars inp hwf c hc with ⟨d, hd, rfl⟩ | rfl | h
  · exact (digitChar_facts d hd).2.2.2.1
  · decide
  · rw [List.mem_flatMap] at h
    obtain ⟨p, hp, hcp⟩ := h
    exact (isSep_props ((hwf.2.2.2.2 p hp).1.2 c hcp)).1

theorem bodyH_lower_id (inp : DaysInput) (hwf : wfInput inp) :
    ∀ c ∈ bodyH inp, lowerChar c = c := by
  intro c hc
  rcases bodyH_chars inp hwf c hc with ⟨d, hd, rfl⟩ | rfl | h
  · exact (digitChar_facts d hd).2.2.2.2.2.2.2.2.1
  · decide
  · rw [List.mem_flatMap] at h
    obtain ⟨p, hp, hcp⟩ := h
    exact (isSep_props ((hwf.2.2.2.2 p hp).1.2 c hcp)).2

theorem bodyH_no_newline (inp : DaysInput) (hwf : wfInput inp)
    (hnl : noNewline inp) : ∀ c ∈ bodyH inp, c ≠ '\n' := by
  intro c hc
  rcases bodyH_chars inp hwf c hc with ⟨d, hd, rfl⟩ | rfl | h
  · exact (digitChar_facts d hd).2.2.2.2.2.1
  · decide
  · rw [List.mem_flatMap] at h
    obtain ⟨p, hp, hcp⟩ := h
    exact hnl.2 p hp c hcp

/-! #### Normalisation of a rendered input -/

theorem map_id_of {f : Char → Char} {l : List Char} (h : ∀ c ∈ l, f c = c) :
    l.map f = l := by
  induction l with
  | nil => rfl
  | cons c cs ih =>
    rw [List.map_cons, h c (List.mem_cons_self _ _),
      ih (fun x hx => h x (List.mem_cons.mpr (Or.inr hx)))]

theorem takeWhile_append_all (p : Char → Bool) (l rest : List Char)
    (h : ∀ c ∈ l, p c = true) :
    (l ++ rest).takeWhile p = l ++ rest.takeWhile p := by
  induction l with
  | nil => rfl
  | cons c cs ih =>
    have hc := h c (List.mem_cons_self _ _)
    simp only [List.cons_append, List.takeWhile_cons, hc, if_true]
    rw [ih (fun x hx => h x (List.mem_cons.mpr (Or.inr hx)))]

theorem dropWhile_append_all (p : Char → Bool) (l rest : List Char)
    (h : ∀ c ∈ l, p c = true) :
    (l ++ rest).dropWhile p = rest.dropWhile p := by
  induction l with
  | nil => rfl
  | cons c cs ih =>
    have hc := h c (List.mem_cons_self _ _)
    simp only [List.cons_append, List.dropWhile_cons, hc, if_true]
    exact ih (fun x hx => h x (List.mem_cons.mpr (Or.inr hx)))

theorem takeWhile_all (p : Char → Bool) (l : List Char)
    (h : ∀ c ∈ l, p c = true) : l.takeWhile p = l := by
  induction l with
  | nil => rfl
  | cons c cs ih =>
    simp only [List.takeWhile_cons, h c (List.mem_cons_self _ _), if_true]
    rw [ih (fun x hx => h x (List.mem_cons.mpr (Or.inr hx)))]

theorem pyStrip_eq_self (l : List Char) (c e : Char) (mid : List Char)
    (hl : l = c :: mid ++ [e] ∨ l = [c] ∧ c = e)
    (hc : isPySpace c = false) (he : isPySpace e = false) : pyStrip l = l := by
  unfold pyStrip
  rcases hl with rfl | ⟨rfl, rfl⟩
  · rw [show ((c :: mid ++ [e]) : List Char).dropWhile isPySpace = c :: mid ++ [e] by
      simp [List.dropWhile_cons, hc]]
    rw [show ((c :: mid ++ [e]) : List Char).reverse = e :: (c :: mid).reverse by
      simp]
    rw [show (e :: (c :: mid).reverse).dropWhile isPySpace = e :: (c :: mid).reverse by
      simp [List.dropWhile_cons, he]]
    simp
  · simp [List.dropWhile_cons, hc]

theorem natChars_no_hyphen_enDash {n : Nat} (c : Char) (hc : c ∈ natChars n) :
    c ≠ '–' := by
  obtain ⟨d, hd, rfl⟩ := (natChars_shape n).2 c hc
  exact (digitChar_facts d hd).2.2.2.1

theorem flatMap_congr {α β : Type} {l : List α} {f g : α → List β}
    (h : ∀ x ∈ l, f x = g x) : l.flatMap f = l.flatMap g := by
  induction l with
  | nil => rfl
  | cons x xs ih =>
    simp only [List.flatMap_cons]
    rw [h x (List.mem_cons_self _ _),
      ih (fun y hy => h y (List.mem_cons.mpr (Or.inr hy)))]

theorem map_flatMap_chars {α : Type} (f : Char → Char) (g : α → List Char)
    (l : List α) :
    (l.flatMap g).map f = l.flatMap (fun x => (g x).map f) := by
  induction l with
  | nil => rfl
  | cons x xs ih => simp [List.flatMap_cons, ih]

/-- Shape of the rendered input after en-dash normalisation. -/
theorem replaceEnDash_render (inp : DaysInput) (hwf : wfInput inp) :
    replaceEnDash (renderInput inp).toList = inp.label ++ inp.ws ++ bodyH inp := by
  have hto : (renderInput inp).toList = inp.label ++ inp.ws ++ renderBody inp := rfl
  rw [hto]
  unfold replaceEnDash
  rw [List.map_append, List.map_append]
  congr 1
  · congr 1
    · refine map_id_of ?_
      intro c hc
      obtain ⟨c1, c2, c3, c4, hl, h1, h2, h3, h4⟩ := hwf.1
      rw [hl] at hc
      simp only [List.mem_cons, List.not_mem_nil, or_false] at hc
      have : c ≠ '–' := by
        rcases hc with rfl | rfl | rfl | rfl
        · exact (caseOf_label_d h1).1
        · exact (caseOf_label_a h2).1
        · exact (caseOf_label_y h3).1
        · exact (caseOf_label_s h4).1
      simp [this]
    · refine map_id_of ?_
      intro c hc
      have := (isPySpace_props (hwf.2.2.1 c hc)).1
      simp [this]
  · unfold renderBody bodyH
    rw [List.map_append]
    congr 1
    · cases ht : inp.firstTok with
      | bare n =>
        simp only [renderTok, hyphenate]
        exact map_id_of (fun c hc => by simp [natChars_no_hyphen_enDash c hc])
      | rng a b dash =>
        have hdash : dash = '-' ∨ dash = '–' := by
          have := hwf.2.2.2.1
          rw [ht] at this
          exact this.2.2
        simp only [renderTok, hyphenate, List.map_append, List.map_cons]
        congr 1
        · exact map_id_of (fun c hc => by simp [natChars_no_hyphen_enDash c hc])
        · congr 1
          · rcases hdash with rfl | rfl <;> rfl
          · exact map_id_of (fun c hc => by simp [natChars_no_hyphen_enDash c hc])
    · rw [map_flatMap_chars]
      refine flatMap_congr ?_
      intro p hp
      rw [List.map_append]
      congr 1
      · refine map_id_of ?_
        intro c hc
        have := (isSep_props ((hwf.2.2.2.2 p hp).1.2 c hc)).1
        simp [this]
      · cases ht : p.2 with
        | bare n =>
          simp only [renderTok, hyphenate]
          exact map_id_of (fun c hc => by simp [natChars_no_hyphen_enDash c hc])
        | rng a b dash =>
          have hdash : dash = '-' ∨ dash = '–' := by
            have := (hwf.2.2.2.2 p hp).2
            rw [ht] at this
            exact this.2.2
          simp only [renderTok, hyphenate, List.map_append, List.map_cons]
          congr 1
          · exact map_id_of (fun c hc => by simp [natChars_no_hyphen_enDash c hc])
          · congr 1
            · rcases hdash with rfl | rfl <;> rfl
            · exact map_id_of (fun c hc => by simp [natChars_no_hyphen_enDash c hc])

theorem label_lower (inp : DaysInput) (hwf : wfInput inp) :
    inp.label.map lowerChar = ['d', 'a', 'y', 's'] := by
  obtain ⟨c1, c2, c3, c4, hl, h1, h2, h3, h4⟩ := hwf.1
  rw [hl]
  simp only [List.map_cons, List.map_nil]
  rw [(caseOf_label_d h1).2.2, (caseOf_label_a h2).2, (caseOf_label_y h3).2,
    (caseOf_label_s h4).2]

theorem label_head_not_space (inp : DaysInput) (hwf : wfInput inp) :
    ∃ c tl, inp.label = c :: tl ∧ isPySpace c = false ∧ lowerChar c = 'd' := by
  obtain ⟨c1, c2, c3, c4, hl, h1, _, _, _⟩ := hwf.1
  exact ⟨c1, [c2, c3, c4], hl, (caseOf_label_d h1).2.1, (caseOf_label_d h1).2.2⟩

/-- Normalisation order of `parse_day_spec`: replace, strip, lower. -/
theorem normalize_pds (inp : DaysInput) (hwf : wfInput inp) :
    pyLower (pyStrip (replaceEnDash (renderInput inp).toList))
      = ['d', 'a', 'y', 's'] ++ inp.ws ++ bodyH inp := by
  rw [replaceEnDash_render inp hwf]
  obtain ⟨c, tl, hlab, hcns, hclow⟩ := label_head_not_space inp hwf
  obtain ⟨f, d, hd, hbody⟩ := bodyH_last_digit inp
  have hstrip : pyStrip (inp.label ++ inp.ws ++ bodyH inp)
      = inp.label ++ inp.ws ++ bodyH inp := by
    refine pyStrip_eq_self _ c (digitChar d) (tl ++ inp.ws ++ f) (Or.inl ?_)
      hcns (digitChar_facts d hd).2.2.1
    rw [hlab, hbody]
    simp
  rw [hstrip]
  unfold pyLower
  rw [List.map_append, List.map_append]
  rw [label_lower inp hwf]
  rw [map_id_of (fun c hc => (isPySpace_props (hwf.2.2.1 c hc)).2)]
  rw [map_id_of (bodyH_lower_id inp hwf)]

/-- Normalisation order of `parse_frequency_days`: replace, lower, strip. -/
theorem normalize_pfd (inp : DaysInput) (hwf : wfInput inp) :
    pyStrip (pyLower (replaceEnDash (renderInput inp).toList))
      = ['d', 'a', 'y', 's'] ++ inp.ws ++ bodyH inp := by
  rw [replaceEnDash_render inp hwf]
  have hlow : pyLower (inp.label ++ inp.ws ++ bodyH inp)
      = ['d', 'a', 'y', 's'] ++ inp.ws ++ bodyH inp := by
    unfold pyLower
    rw [List.map_append, List.map_append]
    rw [label_lower inp hwf]
    rw [map_id_of (fun c hc => (isPySpace_props (hwf.2.2.1 c hc)).2)]
    rw [map_id_of (bodyH_lower_id inp hwf)]
  rw [hlow]
  obtain ⟨f, d, hd, hbody⟩ := bodyH_last_digit inp
  refine pyStrip_eq_self _ 'd' (digitChar d) (['a', 'y', 's'] ++ inp.ws ++ f)
    (Or.inl ?_) (by decide) (digitChar_facts d hd).2.2.1
  rw [hbody]
  simp

/-- The regex label strip removes exactly the rendered label and gap. -/
theorem stripDaysLabel_render (inp : DaysInput) (hwf : wfInput inp) :
    stripDaysLabel (['d', 'a', 'y', 's'] ++ inp.ws ++ bodyH inp) = bodyH inp := by
  obtain ⟨d, tl, hd, hbody⟩ := bodyH_head_digit inp
  have hfacts := digitChar_facts d hd
  show stripDaysLabel ('d' :: 'a' :: 'y' :: 's' :: (inp.ws ++ bodyH inp)) = bodyH inp
  simp only [stripDaysLabel]
  rw [if_pos (by simp)]
  rw [show dropS ('s' :: (inp.ws ++ bodyH inp)) = inp.ws ++ bodyH inp by
    simp [dropS]]
  rw [dropWhile_append_all isPySpace inp.ws (bodyH inp) hwf.2.2.1]
  rw [hbody]
  rw [show (digitChar d :: tl).dropWhile isPySpace = digitChar d :: tl by
    simp [List.dropWhile_cons, hfacts.2.2.1]]
  rw [show dropColonDash (digitChar d :: tl) = digitChar d :: tl by
    simp only [dropColonDash]
    rw [if_neg (by
      push_neg
      exact ⟨hfacts.2.2.2.2.2.2.2.2.2.1, hfacts.2.2.2.2.1⟩)]]
  simp [List.dropWhile_cons, hfacts.2.2.1]

/-- Tokenising the body recovers exactly the rendered tokens. -/
theorem tokenize_bodyH (inp : DaysInput) (hwf : wfInput inp) :
    tokenize (bodyH inp)
      = (inputToks inp).map (fun t => renderTok (hyphenate t)) := by
  have hpairs := tokenize_pairs
    (inp.restToks.map (fun p => (p.1, renderTok (hyphenate p.2))))
    (renderTok (hyphenate inp.firstTok))
    (renderTok_ne_nil inp.firstTok)
    (fun c hc => (tokH_char_props hc).1)
    (by
      intro q hq
      rw [List.mem_map] at hq
      obtain ⟨p, hp, rfl⟩ := hq
      refine ⟨⟨(hwf.2.2.2.2 p hp).1.1, (hwf.2.2.2.2 p hp).1.2⟩,
        renderTok_ne_nil p.2, fun c hc => (tokH_char_props hc).1⟩)
  have hflat : (inp.restToks.map (fun p => (p.1, renderTok (hyphenate p.2)))).flatMap
        (fun p => p.1 ++ p.2)
      = inp.restToks.flatMap (fun p => p.1 ++ renderTok (hyphenate p.2)) := by
    rw [List.flatMap_map]
  rw [hflat] at hpairs
  unfold bodyH
  rw [hpairs]
  unfold inputToks
  simp [List.map_map]

theorem tokenDays_renderTokH (t : DTok) (hwf : wfTok t) :
    tokenDays (renderTok (hyphenate t)) = tokDays t := by
  cases t with
  | bare n => exact tokenDays_bare n hwf
  | rng a b dash =>
    obtain ⟨h1, hab, _⟩ := hwf
    have := tokenDays_rng a b h1 hab
    simpa [hyphenate, tokDays] using this

theorem tokDays_pos (t : DTok) (hwf : wfTok t) : ∀ x ∈ tokDays t, 1 ≤ x := by
  cases t with
  | bare n =>
    intro x hx
    rw [tokDays, List.mem_singleton] at hx
    subst hx
    exact hwf
  | rng a b dash =>
    intro x hx
    rw [tokDays, List.mem_map] at hx
    obtain ⟨i, _, rfl⟩ := hx
    have := hwf.1
    omega

theorem wf_toks (inp : DaysInput) (hwf : wfInput inp) :
    ∀ t ∈ inputToks inp, wfTok t := by
  intro t ht
  rcases List.mem_cons.mp ht with rfl | ht'
  · exact hwf.2.2.2.1
  · rw [List.mem_map] at ht'
    obtain ⟨p, hp, rfl⟩ := ht'
    exact (hwf.2.2.2.2 p hp).2

/-- `parse_day_spec` on a rendered input computes the token semantics. -/
theorem pds_rendered (inp : DaysInput) (hwf : wfInput inp) :
    parse_day_spec (renderInput inp)
      = sortedDedup ((inputToks inp).flatMap tokDays) := by
  have hnorm : normalizedSpec (renderInput inp) = bodyH inp := by
    unfold normalizedSpec
    rw [normalize_pds inp hwf]
    exact stripDaysLabel_render inp hwf
  rw [parse_day_spec_eq, collectedDays_eq_flatMap, hnorm, tokenize_bodyH inp hwf]
  rw [List.flatMap_map]
  have hcongr : (inputToks inp).flatMap (fun t => tokenDays (renderTok (hyphenate t)))
      = (inputToks inp).flatMap tokDays :=
    flatMap_congr (fun t ht => tokenDays_renderTokH t (wf_toks inp hwf t ht))
  rw [hcongr]
  rw [List.filter_eq_self.mpr (by
    intro x hx
    rw [List.mem_flatMap] at hx
    obtain ⟨t, ht, hxt⟩ := hx
    simpa using tokDays_pos t (wf_toks inp hwf t ht) x hxt)]

/-- `re.search(r"days\s+(.+)")` on a rendered no-newline input groups the
whole body. -/
theorem findDaysMatch_render (inp : DaysInput) (hwf : wfInput inp)
    (hnl : noNewline inp) :
    findDaysMatch (['d', 'a', 'y', 's'] ++ inp.ws ++ bodyH inp)
      = some (bodyH inp) := by
  obtain ⟨d, tl, hd, hbody⟩ := bodyH_head_digit inp
  have hfacts := digitChar_facts d hd
  show findDaysMatch ('d' :: 'a' :: 'y' :: 's' :: (inp.ws ++ bodyH inp))
      = some (bodyH inp)
  simp only [findDaysMatch]
  have htry : tryDaysAt ('d' :: 'a' :: 'y' :: 's' :: (inp.ws ++ bodyH inp))
      = some (bodyH inp) := by
    simp only [tryDaysAt]
    rw [if_pos (by simp)]
    unfold matchWsDot
    rw [takeWhile_append_all isPySpace inp.ws (bodyH inp) hwf.2.2.1]
    rw [dropWhile_append_all isPySpace inp.ws (bodyH inp) hwf.2.2.1]
    rw [hbody]
    rw [show (digitChar d :: tl).takeWhile isPySpace = [] by
      simp [List.takeWhile_cons, hfacts.2.2.1]]
    rw [show (digitChar d :: tl).dropWhile isPySpace = digitChar d :: tl by
      simp [List.dropWhile_cons, hfacts.2.2.1]]
    rw [List.append_nil]
    rw [if_neg hwf.2.1, if_neg (by simp)]
    rw [← hbody]
    rw [takeWhile_all _ _ (by
      intro c hc
      simpa using bodyH_no_newline inp hwf hnl c hc)]
  rw [htry]

/-- `parse_frequency_days` on a rendered no-newline input computes the
same token semantics. -/
theorem pfd_rendered (inp : DaysInput) (hwf : wfInput inp) (hnl : noNewline inp) :
    parse_frequency_days (renderInput inp)
      = sortedDedup ((inputToks inp).flatMap tokDays) := by
  unfold parse_frequency_days
  rw [normalize_pfd inp hwf, findDaysMatch_render inp hwf hnl]
  show sortedDedup
      ((tokenize (bodyH inp)).foldl (fun out tok => out ++ tokenDays tok) [])
    = sortedDedup ((inputToks inp).flatMap tokDays)
  rw [tokenize_bodyH inp hwf]
  rw [foldl_append_eq_flatMap]
  rw [List.nil_append, List.flatMap_map]
  rw [flatMap_congr (fun t ht => tokenDays_renderTokH t (wf_toks inp hwf t ht))]

/-! #### Claim C10 -/

/-- The counterexample input: `days 1\n2` — two bare tokens separated by a
newline, which is legal whitespace for the claim's grammar. -/
def cexInput : DaysInput :=
  ⟨['d', 'a', 'y', 's'], [' '], .bare 1, [(['\n'], .bare 2)]⟩

/-- Claim C10 counterexample: on the well-formed input `"days 1\n2"` the
two parsers disagree — `parse_day_spec` sees both tokens, while
`parse_frequency_days` stops at the newline because `.` in its regex
`days\s+(.+)` does not match `\n`. -/
theorem parsers_agree_cex :
    wfInput cexInput ∧ renderInput cexInput = "days 1\n2" ∧
      parse_day_spec "days 1\n2" = [1, 2] ∧
      parse_frequency_days "days 1\n2" = [1] ∧
      parse_day_spec (renderInput cexInput)
        ≠ parse_frequency_days (renderInput cexInput) := by
  refine ⟨⟨⟨'d', 'a', 'y', 's', rfl, Or.inl rfl, Or.inl rfl, Or.inl rfl, Or.inl rfl⟩,
      by decide, by decide, by decide, ?_⟩, by decide, by decide, by decide, by decide⟩
  intro p hp
  rw [show cexInput.restToks = [(['\n'], DTok.bare 2)] from rfl] at hp
  rw [List.mem_singleton] at hp
  subst hp
  exact ⟨⟨by decide, by decide⟩, by decide⟩

/-- Claim C10 (amended): the two parser iterations agree on every
well-formed `days …` input whose whitespace contains no newline; with a
newline separator they can disagree (see the counterexample), because
`parse_frequency_days`' regex group `(.+)` stops at a newline. -/
theorem parsers_agree (inp : DaysInput) (hwf : wfInput inp)
    (hnl : noNewline inp) :
    parse_day_spec (renderInput inp) = parse_frequency_days (renderInput inp) := by
  rw [pds_rendered inp hwf, pfd_rendered inp hwf hnl]

/-- A concrete no-newline input for the C10 witness. -/
def agreeInput : DaysInput :=
  ⟨['D', 'a', 'y', 's'], [' '], .rng 1 3 '-', [([',', ' '], .bare 7)]⟩

/-- Witness for C10 on `"Days 1-3, 7"`. -/
theorem parsers_agree_witness :
    parse_day_spec (renderInput agreeInput)
      = parse_frequency_days (renderInput agreeInput) :=
  parsers_agree agreeInput
    ⟨⟨'D', 'a', 'y', 's', rfl, Or.inr rfl, Or.inl rfl, Or.inl rfl, Or.inl rfl⟩,
      by decide, by decide, by decide, by
        intro p hp
        rw [show agreeInput.restToks = [([',', ' '], DTok.bare 7)] from rfl] at hp
        rw [List.mem_singleton] at hp
        subst hp
        exact ⟨⟨by decide, by decide⟩, by decide⟩⟩
    ⟨by decide, by
      intro p hp
      rw [show agreeInput.restToks = [([',', ' '], DTok.bare 7)] from rfl] at hp
      rw [List.mem_singleton] at hp
      subst hp
      decide⟩

end ChemoCal
